import Mathlib

/-!
Verification of the MIDAS ontology graph-RAG engine.

The definitions below are a shallow embedding of the Python sources:
`src/model/scoring.py`, `src/model/reporting.py`, `src/model/ontology.py`,
`src/model/graph_rag.py`, `src/utils/extract_paper_attributes.py` and the
score aggregation in `src/main.py`.  Scores are modelled with `ℚ` (the
Python code uses floats but all claimed values are exact), machine
dictionaries become association lists (insertion ordered, like Python
dicts), sets become duplicate-free lists, and code that can raise a
Python exception is embedded in `Option`/`Except` with `none`/`error`
exactly at the raising inputs.
-/

namespace MidasRag

/-- Attribute record of one networkx graph node.  In the source the
attributes live in a per-node dict; every list-valued key is read with
`.get(key, [])`, so an absent key is observationally the empty list and
an absent `type`/`label` string is modelled by `""`. -/
structure NodeData where
  ntype : String := ""
  label : String := ""
  synonyms : List String := []
  definition : Option String := none
  parents : List String := []
  children : List String := []
  equivalentClasses : List String := []
  domainOf : List String := []
  rangeOf : List String := []
  domain : List String := []
  range : List String := []
deriving Repr, DecidableEq

/-- The directed ontology graph: node id list (insertion order), the
attribute dict of each node, and the edge list with its `predicate`
attribute, as built by `build_ontology_graph`. -/
structure OGraph where
  nodeIds : List String := []
  attr : String → NodeData := fun _ => {}
  edges : List (String × String × String) := []

/-! ## Scoring (`src/model/scoring.py`) -/

/-- Concept-coverage sub-score, `scoring.py` lines 27-30:
`min(min(num_matched, 5)/5.0, 1.0) * 30.0`. -/
def coverage_score (matched_classes : List String) : ℚ :=
  let num_matched := matched_classes.length
  let coverage_ratio : ℚ := ((min num_matched 5 : ℕ) : ℚ) / 5
  (min coverage_ratio 1) * 30

/-- The list `[depth_map.get(cid, 0) for cid in matched_classes if cid in depth_map]`
of `scoring.py` line 33. -/
def matched_depths (matched_classes : List String) (depth_map : List (String × ℕ)) :
    List ℕ :=
  (matched_classes.filter (fun cid => (depth_map.lookup cid).isSome)).map
    (fun cid => (depth_map.lookup cid).getD 0)

/-- Hierarchy-fit sub-score, `scoring.py` lines 32-38. -/
def hierarchy_score (matched_classes : List String) (depth_map : List (String × ℕ)) :
    ℚ :=
  let depths := matched_depths matched_classes depth_map
  if depths.isEmpty then 0
  else
    let avg_depth : ℚ := ((depths.sum : ℕ) : ℚ) / (depths.length : ℚ)
    (min (avg_depth / 3) 1) * 20

/-- Inner test of the alignment loop, `scoring.py` lines 46-51: the
property `prop_id` has some endpoint (domain or range) that is a matched
class distinct from `cid`; the `break` exits only this endpoint loop. -/
def prop_aligns (G : OGraph) (matched_classes : List String) (cid prop_id : String) :
    Bool :=
  ((G.attr prop_id).domain ++ (G.attr prop_id).range).any
    (fun c => matched_classes.contains c && c != cid)

/-- The `aligned_relations` counter of `scoring.py` lines 43-51: for each
matched class, for each property in its `domainOf ++ rangeOf` lists, add
one if some other endpoint of that property is a distinct matched class. -/
def aligned_relations (G : OGraph) (matched_classes : List String) : ℕ :=
  matched_classes.foldl
    (fun acc cid =>
      ((G.attr cid).domainOf ++ (G.attr cid).rangeOf).foldl
        (fun acc2 prop_id =>
          if prop_aligns G matched_classes cid prop_id then acc2 + 1 else acc2)
        acc)
    0

/-- Property-alignment sub-score, `scoring.py` lines 40-53. -/
def alignment_score (G : OGraph) (matched_classes : List String) : ℚ :=
  if matched_classes.length > 1 then
    let ar := aligned_relations G matched_classes
    if ar > 0 then ((min ar 2 : ℕ) : ℚ) / 2 * 20 else 0
  else 0

/-- One DFS of the coherence component count, `scoring.py` lines 69-76.
The Python stack pops from the end; here the head of the list is the top
of the stack, so a batch of pushes is reversed onto the front.  Runs on
fuel; `none` models a fuel shortage only (the source loop always
terminates because `visited` grows). -/
def coherence_dfs (G : OGraph) (subg_nodes : List String) :
    ℕ → List String → List String → Option (List String)
  | _, [], visited => some visited
  | fuel + 1, n :: rest, visited =>
      if visited.contains n then coherence_dfs G subg_nodes fuel rest visited
      else
        let visited' := visited ++ [n]
        let pushes :=
          ((G.attr n).parents ++ (G.attr n).children).filter
            (fun neigh => subg_nodes.contains neigh && !visited'.contains neigh)
        coherence_dfs G subg_nodes fuel (pushes.reverse ++ rest) visited'
  | 0, _ :: _, _ => none

/-- Outer component-count loop of `scoring.py` lines 64-76: iterate the
matched nodes, start a DFS at each not-yet-visited one and count it as a
new component. -/
def component_loop (G : OGraph) (subg_nodes : List String) (fuel : ℕ) :
    List String → ℕ → List String → Option (ℕ × List String)
  | [], comp_count, visited => some (comp_count, visited)
  | node :: rest, comp_count, visited =>
      if visited.contains node then
        component_loop G subg_nodes fuel rest comp_count visited
      else
        match coherence_dfs G subg_nodes fuel [node] visited with
        | none => none
        | some visited' =>
            component_loop G subg_nodes fuel rest (comp_count + 1) visited'

/-- Fuel that is always sufficient for `coherence_dfs`: one pop for the
start node plus at most one push per neighbour-list entry of a subgraph
node, plus slack. -/
def dfs_fuel (G : OGraph) (subg_nodes : List String) : ℕ :=
  (subg_nodes.map
      (fun x => ((G.attr x).parents ++ (G.attr x).children).length)).sum +
    subg_nodes.length + 1

/-- Graph-coherence sub-score, `scoring.py` lines 77-80, from a component
count `comp_count` over `matched_classes`. -/
def coherence_of_components (comp_count : ℕ) (matched_classes : List String) : ℚ :=
  if comp_count = 1 then 15
  else max 0 (15 * (1 - ((comp_count : ℚ) - 1) / (matched_classes.length : ℚ)))

/-- `calculate_relevance_scores` of `scoring.py` lines 24-82.  Returns the
four sub-scores and the `visited` set.  When `matched_classes` is empty
the Python function raises `UnboundLocalError` at the `return` statement
(line 82) because `visited` is assigned only inside the
`if num_matched > 0` block of the coherence step; this is modelled by
`none`.  The subgraph edge list of lines 58-63 is computed but never used
by the source, so it is omitted here; the `classes` argument is likewise
only read into the unused `total_classes`. -/
def calculate_relevance_scores (G : OGraph) (classes : List String)
    (matched_classes : List String) (depth_map : List (String × ℕ)) :
    Option (ℚ × ℚ × ℚ × ℚ × List String) :=
  let _ := classes.length
  let cov := coverage_score matched_classes
  let hier := hierarchy_score matched_classes depth_map
  let align := alignment_score G matched_classes
  if matched_classes.length > 0 then
    let subg_nodes := matched_classes.dedup
    match component_loop G subg_nodes (dfs_fuel G subg_nodes) subg_nodes 0 [] with
    | none => none
    | some (comp_count, visited) =>
        some (cov, hier, align, coherence_of_components comp_count matched_classes,
          visited)
  else none

/-- `calculate_terminology_scores` of `scoring.py` lines 84-104. -/
def calculate_terminology_scores (matched_classes direct_label_hits synonym_hits :
    List String) : ℚ × ℚ × ℕ :=
  let num_matched := matched_classes.length
  let consistent_count :=
    (matched_classes.filter
      (fun cid => direct_label_hits.contains cid || synonym_hits.contains cid)).length
  let consistency_score : ℚ :=
    if num_matched > 0 then ((consistent_count : ℕ) : ℚ) / (num_matched : ℚ) * 10
    else 0
  let evidence_score : ℚ :=
    if consistent_count > 0 ∧ num_matched > 1 then 5
    else if consistent_count > 0 then 4
    else if num_matched > 0 then 2
    else 0
  (consistency_score, evidence_score, consistent_count)

/-! ## Verdict (`src/model/reporting.py`) and total (`src/main.py`) -/

/-- `generate_verdict` of `reporting.py` lines 4-11. -/
def generate_verdict (total_score : ℚ) : String :=
  if total_score ≥ 70 then "Relevant"
  else if total_score ≥ 30 then "Partially Relevant"
  else "Not Relevant"

/-- The total of `main.py` lines 85-87: the six sub-scores summed and
hard-capped at 100. -/
def total_score (cov hier align coh cons ev : ℚ) : ℚ :=
  min (cov + hier + align + coh + cons + ev) 100

/-- The match-type selection of `print_top_matches`, `reporting.py`
lines 26-34. -/
def match_type_for (cid : String) (direct_label_hits synonym_hits : List String) :
    String :=
  if direct_label_hits.contains cid then "label"
  else if synonym_hits.contains cid then "synonym"
  else "embedding"

/-! ## Spec-side formulations used by the corrected claims -/

/-- Hierarchy fit as the spec words it: the average depth is taken over
ALL matched classes, a missing depth contributing 0; zero when no
matched class has a known depth. -/
def claim_hierarchy_score (matched_classes : List String)
    (depth_map : List (String × ℕ)) : ℚ :=
  if matched_classes.any (fun cid => (depth_map.lookup cid).isSome) then
    let avg_depth : ℚ :=
      (((matched_classes.map (fun cid => (depth_map.lookup cid).getD 0)).sum : ℕ) : ℚ) /
        (matched_classes.length : ℚ)
    (min (avg_depth / 3) 1) * 20
  else 0

/-- Property alignment as the spec words it: each matched class
contributes at most one aligned relation, by an early exit on the first
property (among those it is domain-of or range-of) whose other endpoint
is a distinct matched class. -/
def claim_aligned_relations (G : OGraph) (matched_classes : List String) : ℕ :=
  matched_classes.countP (fun cid =>
    ((G.attr cid).domainOf ++ (G.attr cid).rangeOf).any
      (fun prop_id => prop_aligns G matched_classes cid prop_id))

/-- Property-alignment score as the spec words it. -/
def claim_alignment_score (G : OGraph) (matched_classes : List String) : ℚ :=
  if 2 ≤ matched_classes.length then
    ((min (claim_aligned_relations G matched_classes) 2 : ℕ) : ℚ) / 2 * 20
  else 0

/-! ## Range lemmas for the six sub-scores -/

lemma coverage_score_nonneg (m : List String) : 0 ≤ coverage_score m := by
  simp only [coverage_score]
  have h1 : (0 : ℚ) ≤ ((min m.length 5 : ℕ) : ℚ) / 5 := by positivity
  have h2 : (0 : ℚ) ≤ min (((min m.length 5 : ℕ) : ℚ) / 5) 1 := le_min h1 (by norm_num)
  nlinarith

lemma coverage_score_le (m : List String) : coverage_score m ≤ 30 := by
  simp only [coverage_score]
  have h2 : min (((min m.length 5 : ℕ) : ℚ) / 5) 1 ≤ 1 := min_le_right _ _
  nlinarith

lemma hierarchy_score_nonneg (m : List String) (dm : List (String × ℕ)) :
    0 ≤ hierarchy_score m dm := by
  simp only [hierarchy_score]
  split
  · norm_num
  · have h1 : (0 : ℚ) ≤
        (((matched_depths m dm).sum : ℕ) : ℚ) / ((matched_depths m dm).length : ℚ) / 3 := by
      positivity
    have h2 := le_min h1 (by norm_num : (0:ℚ) ≤ 1)
    exact mul_nonneg h2 (by norm_num)

lemma hierarchy_score_le (m : List String) (dm : List (String × ℕ)) :
    hierarchy_score m dm ≤ 20 := by
  simp only [hierarchy_score]
  split
  · norm_num
  · have h2 : min ((((matched_depths m dm).sum : ℕ) : ℚ) /
        ((matched_depths m dm).length : ℚ) / 3) 1 ≤ 1 := min_le_right _ _
    nlinarith

lemma alignment_score_nonneg (G : OGraph) (m : List String) :
    0 ≤ alignment_score G m := by
  simp only [alignment_score]
  split
  · split
    · positivity
    · norm_num
  · norm_num

lemma alignment_score_le (G : OGraph) (m : List String) :
    alignment_score G m ≤ 20 := by
  simp only [alignment_score]
  split
  · split
    · have h : ((min (aligned_relations G m) 2 : ℕ) : ℚ) ≤ 2 := by
        have := min_le_right (aligned_relations G m) 2
        exact_mod_cast this
      nlinarith
    · norm_num
  · norm_num

lemma coherence_of_components_nonneg (cc : ℕ) (m : List String) :
    0 ≤ coherence_of_components cc m := by
  simp only [coherence_of_components]
  split
  · norm_num
  · exact le_max_left _ _

lemma coherence_of_components_le (cc : ℕ) (m : List String) (hcc : 1 ≤ cc)
    (hm : 0 < m.length) : coherence_of_components cc m ≤ 15 := by
  simp only [coherence_of_components]
  split
  · norm_num
  · have hfrac : (0 : ℚ) ≤ ((cc : ℚ) - 1) / (m.length : ℚ) := by
      apply div_nonneg
      · have h1 : (1 : ℚ) ≤ (cc : ℚ) := by exact_mod_cast hcc
        linarith
      · positivity
    have h15 : 15 * (1 - ((cc : ℚ) - 1) / (m.length : ℚ)) ≤ 15 := by nlinarith
    exact max_le (by norm_num) h15

lemma terminology_scores_range (m direct synm : List String) :
    0 ≤ (calculate_terminology_scores m direct synm).1 ∧
    (calculate_terminology_scores m direct synm).1 ≤ 10 ∧
    0 ≤ (calculate_terminology_scores m direct synm).2.1 ∧
    (calculate_terminology_scores m direct synm).2.1 ≤ 5 := by
  simp only [calculate_terminology_scores]
  have hle : ((m.filter (fun cid => direct.contains cid || synm.contains cid)).length : ℚ) ≤
      (m.length : ℚ) := by
    exact_mod_cast List.length_filter_le _ m
  refine ⟨?_, ?_, ?_, ?_⟩
  · split
    · positivity
    · norm_num
  · split
    · rename_i hpos
      have hm : (0 : ℚ) < (m.length : ℚ) := by exact_mod_cast hpos
      have := div_le_one_of_le₀ hle (le_of_lt hm)
      nlinarith
    · norm_num
  · split
    · norm_num
    · split
      · norm_num
      · split <;> norm_num
  · split
    · norm_num
    · split
      · norm_num
      · split <;> norm_num

/-! ## Structure of a successful `calculate_relevance_scores` run -/

lemma component_loop_le (G : OGraph) (s : List String) (f : ℕ) :
    ∀ (l : List String) (cc : ℕ) (vis : List String) (res : ℕ × List String),
      component_loop G s f l cc vis = some res → cc ≤ res.1 := by
  intro l
  induction l with
  | nil =>
      intro cc vis res h
      simp only [component_loop, Option.some.injEq] at h
      rw [← h]
  | cons x xs ih =>
      intro cc vis res h
      rw [component_loop] at h
      split at h
      · exact ih cc vis res h
      · cases hdfs : coherence_dfs G s f [x] vis with
        | none => rw [hdfs] at h; simp at h
        | some v' =>
            rw [hdfs] at h
            have := ih (cc + 1) v' res h
            omega

lemma component_loop_pos (G : OGraph) (s : List String) (f : ℕ)
    (x : String) (xs : List String) (res : ℕ × List String)
    (h : component_loop G s f (x :: xs) 0 [] = some res) : 1 ≤ res.1 := by
  rw [component_loop] at h
  simp only [List.contains, List.elem_nil] at h
  cases hdfs : coherence_dfs G s f [x] [] with
  | none => rw [hdfs] at h; simp at h
  | some v' =>
      rw [hdfs] at h
      exact component_loop_le G s f xs 1 v' res h

/-- A successful run of `calculate_relevance_scores` yields exactly the
four sub-score functions, and its component count is at least 1. -/
lemma calculate_relevance_scores_some (G : OGraph) (classes m : List String)
    (dm : List (String × ℕ)) (cov hier align coh : ℚ) (vis : List String)
    (h : calculate_relevance_scores G classes m dm = some (cov, hier, align, coh, vis)) :
    cov = coverage_score m ∧ hier = hierarchy_score m dm ∧
    align = alignment_score G m ∧ 0 < m.length ∧
    ∃ cc, 1 ≤ cc ∧ coh = coherence_of_components cc m := by
  simp only [calculate_relevance_scores] at h
  split at h
  · rename_i hlen
    cases hm : m.dedup with
    | nil =>
        have hnil : m = [] := by rwa [List.dedup_eq_nil] at hm
        simp [hnil] at hlen
    | cons x xs =>
        rw [hm] at h
        cases hcl : component_loop G (x :: xs) (dfs_fuel G (x :: xs)) (x :: xs) 0 [] with
        | none => rw [hcl] at h; simp at h
        | some res =>
            rw [hcl] at h
            obtain ⟨cc, vis'⟩ := res
            simp only [Option.some.injEq, Prod.mk.injEq] at h
            obtain ⟨h1, h2, h3, h4, h5⟩ := h
            refine ⟨h1.symm, h2.symm, h3.symm, hlen, cc, ?_, h4.symm⟩
            exact component_loop_pos G _ _ x xs (cc, vis') hcl
  · exact absurd h (by simp)

lemma generate_verdict_iff (t : ℚ) :
    (generate_verdict t = "Relevant" ↔ 70 ≤ t) ∧
    (generate_verdict t = "Partially Relevant" ↔ 30 ≤ t ∧ t < 70) ∧
    (generate_verdict t = "Not Relevant" ↔ t < 30) := by
  unfold generate_verdict
  split
  · rename_i h1
    refine ⟨⟨fun _ => h1, fun _ => rfl⟩, ?_, ?_⟩
    · constructor
      · intro h; exact absurd h (by decide)
      · rintro ⟨_, h⟩; linarith
    · constructor
      · intro h; exact absurd h (by decide)
      · intro h; linarith
  · split
    · rename_i h1 h2
      push_neg at h1
      refine ⟨?_, ⟨fun _ => ⟨h2, h1⟩, fun _ => rfl⟩, ?_⟩
      · constructor
        · intro h; exact absurd h (by decide)
        · intro h; linarith
      · constructor
        · intro h; exact absurd h (by decide)
        · intro h; linarith
    · rename_i h1 h2
      push_neg at h1 h2
      refine ⟨?_, ?_, ⟨fun _ => h2, fun _ => rfl⟩⟩
      · constructor
        · intro h; exact absurd h (by decide)
        · intro h; linarith
      · constructor
        · intro h; exact absurd h (by decide)
        · rintro ⟨h, _⟩; linarith

/-! ## Helper lemmas for the alignment count -/

lemma foldl_if_count {α : Type} (p : α → Bool) :
    ∀ (l : List α) (a : ℕ),
      l.foldl (fun acc x => if p x then acc + 1 else acc) a = a + l.countP p := by
  intro l
  induction l with
  | nil => intro a; simp
  | cons x xs ih =>
      intro a
      rw [List.foldl_cons, List.countP_cons]
      by_cases h : p x
      · simp only [h, if_pos, if_true]
        rw [ih]
        omega
      · simp only [h, if_neg, Bool.false_eq_true, if_false]
        rw [ih]
        simp [h]

lemma aligned_relations_eq_sum (G : OGraph) (m : List String) :
    aligned_relations G m =
      (m.map (fun cid =>
        (((G.attr cid).domainOf ++ (G.attr cid).rangeOf).filter
          (fun prop_id => prop_aligns G m cid prop_id)).length)).sum := by
  have key : ∀ (l : List String) (a : ℕ),
      l.foldl (fun acc cid =>
        ((G.attr cid).domainOf ++ (G.attr cid).rangeOf).foldl
          (fun acc2 prop_id =>
            if prop_aligns G m cid prop_id then acc2 + 1 else acc2) acc) a =
      a + (l.map (fun cid =>
        (((G.attr cid).domainOf ++ (G.attr cid).rangeOf).filter
          (fun prop_id => prop_aligns G m cid prop_id)).length)).sum := by
    intro l
    induction l with
    | nil => intro a; simp
    | cons x xs ih =>
        intro a
        rw [List.foldl_cons, ih, foldl_if_count]
        rw [List.map_cons, List.sum_cons, List.countP_eq_length_filter]
        have heta : List.filter (prop_aligns G m x)
            ((G.attr x).domainOf ++ (G.attr x).rangeOf) =
            List.filter (fun prop_id => prop_aligns G m x prop_id)
              ((G.attr x).domainOf ++ (G.attr x).rangeOf) := rfl
        rw [heta]
        omega
  have h0 := key m 0
  simpa [aligned_relations] using h0

/-! ## Claim C1 (code_bug): empty matched set -/

/-- C1: the spec says that with `matched_classes = ∅` all six sub-scores
are 0.0 and no exception is raised.  `calculate_terminology_scores`
indeed returns all zeros, but `calculate_relevance_scores` raises
`UnboundLocalError` at its `return` statement because `visited` is
assigned only inside the `if num_matched > 0` block (modelled by `none`):
the code contradicts the spec's explicit totality promise. -/
theorem scoring_empty_matched_raises (G : OGraph) (classes : List String)
    (depth_map : List (String × ℕ)) (direct_label_hits synonym_hits : List String) :
    calculate_relevance_scores G classes [] depth_map = none ∧
    calculate_terminology_scores [] direct_label_hits synonym_hits = (0, 0, 0) := by
  constructor
  · simp [calculate_relevance_scores]
  · simp [calculate_terminology_scores]

/-! ## Claim C2: total in range and verdict thresholds -/

/-- C2: whenever the scoring pipeline produces its sub-scores (the
relevance-score call succeeds), the capped total of the six sub-scores
lies in [0, 100], and `generate_verdict` yields "Relevant" exactly for
total ≥ 70, "Partially Relevant" exactly for 30 ≤ total < 70, and
"Not Relevant" exactly for total < 30. -/
theorem total_score_in_range_and_verdict (G : OGraph)
    (classes matched_classes direct_label_hits synonym_hits : List String)
    (depth_map : List (String × ℕ)) (cov hier align coh cons ev : ℚ)
    (vis : List String) (k : ℕ)
    (hrel : calculate_relevance_scores G classes matched_classes depth_map =
      some (cov, hier, align, coh, vis))
    (hterm : calculate_terminology_scores matched_classes direct_label_hits synonym_hits =
      (cons, ev, k)) :
    0 ≤ total_score cov hier align coh cons ev ∧
    total_score cov hier align coh cons ev ≤ 100 ∧
    (generate_verdict (total_score cov hier align coh cons ev) = "Relevant" ↔
      70 ≤ total_score cov hier align coh cons ev) ∧
    (generate_verdict (total_score cov hier align coh cons ev) = "Partially Relevant" ↔
      30 ≤ total_score cov hier align coh cons ev ∧
        total_score cov hier align coh cons ev < 70) ∧
    (generate_verdict (total_score cov hier align coh cons ev) = "Not Relevant" ↔
      total_score cov hier align coh cons ev < 30) := by
  obtain ⟨h1, h2, h3, hlen, cc, hcc, h4⟩ :=
    calculate_relevance_scores_some G classes matched_classes depth_map
      cov hier align coh vis hrel
  have ht := terminology_scores_range matched_classes direct_label_hits synonym_hits
  rw [hterm] at ht
  simp only at ht
  obtain ⟨ht1, ht2, ht3, ht4⟩ := ht
  have hbounds : 0 ≤ cov + hier + align + coh + cons + ev ∧
      cov + hier + align + coh + cons + ev ≤ 100 := by
    have b1 := coverage_score_nonneg matched_classes
    have b2 := coverage_score_le matched_classes
    have b3 := hierarchy_score_nonneg matched_classes depth_map
    have b4 := hierarchy_score_le matched_classes depth_map
    have b5 := alignment_score_nonneg G matched_classes
    have b6 := alignment_score_le G matched_classes
    have b7 := coherence_of_components_nonneg cc matched_classes
    have b8 := coherence_of_components_le cc matched_classes hcc hlen
    rw [← h1] at b1 b2
    rw [← h2] at b3 b4
    rw [← h3] at b5 b6
    rw [← h4] at b7 b8
    constructor <;> linarith
  have htot0 : 0 ≤ total_score cov hier align coh cons ev := by
    simp only [total_score]
    exact le_min hbounds.1 (by norm_num)
  have htot100 : total_score cov hier align coh cons ev ≤ 100 := by
    simp only [total_score]
    exact min_le_right _ _
  have hv := generate_verdict_iff (total_score cov hier align coh cons ev)
  exact ⟨htot0, htot100, hv.1, hv.2.1, hv.2.2⟩

/-- Witness for C2 at a concrete input: one matched class on the empty
graph scores (6, 0, 0, 15) with terminology (0, 2), total 23, verdict
thresholds as claimed. -/
theorem total_score_in_range_and_verdict_witness :
    0 ≤ total_score 6 0 0 15 0 2 ∧
    total_score 6 0 0 15 0 2 ≤ 100 ∧
    (generate_verdict (total_score 6 0 0 15 0 2) = "Relevant" ↔
      70 ≤ total_score 6 0 0 15 0 2) ∧
    (generate_verdict (total_score 6 0 0 15 0 2) = "Partially Relevant" ↔
      30 ≤ total_score 6 0 0 15 0 2 ∧ total_score 6 0 0 15 0 2 < 70) ∧
    (generate_verdict (total_score 6 0 0 15 0 2) = "Not Relevant" ↔
      total_score 6 0 0 15 0 2 < 30) := by
  have hrel : calculate_relevance_scores {} [] ["a"] [] = some (6, 0, 0, 15, ["a"]) := by
    simp only [calculate_relevance_scores, coverage_score, hierarchy_score, matched_depths,
      alignment_score, dfs_fuel, coherence_of_components]
    norm_num [component_loop, coherence_dfs, List.dedup]
  have hterm : calculate_terminology_scores ["a"] [] [] = (0, 2, 0) := by
    norm_num [calculate_terminology_scores]
  exact total_score_in_range_and_verdict {} [] ["a"] [] [] [] 6 0 0 15 0 2 ["a"] 0 hrel hterm

/-! ## Claim C3 (corrected): hierarchy fit and missing depths -/

/-- Two-node graph with no edges, used as the counterexample context. -/
def G_c3 : OGraph := { nodeIds := ["a", "b"] }

/-- C3 counterexample: for matched classes `a, b` with `depth_map` only
recording depth 3 for `a`, the code's hierarchy sub-score (second
component of the relevance tuple) is 20 — the average is taken only over
classes present in the depth map — while the claim's formula (missing
depth treated as 0) yields 10. -/
theorem hierarchy_claim_counterexample :
    calculate_relevance_scores G_c3 [] ["a", "b"] [("a", 3)] =
      some (12, 20, 0, 15/2, ["a", "b"]) ∧
    claim_hierarchy_score ["a", "b"] [("a", 3)] = 10 ∧
    (20 : ℚ) ≠ 10 := by
  refine ⟨?_, ?_, by norm_num⟩
  · have hdd : (["a", "b"] : List String).dedup = ["a", "b"] := by decide
    have hcl : component_loop G_c3 ["a", "b"] (dfs_fuel G_c3 ["a", "b"]) ["a", "b"] 0 []
        = some (2, ["a", "b"]) := by decide
    have hmd : matched_depths ["a", "b"] [("a", 3)] = [3] := by decide
    have hal : aligned_relations G_c3 ["a", "b"] = 0 := by decide
    simp only [calculate_relevance_scores, hdd, hcl, coverage_score, hierarchy_score,
      alignment_score, hal, coherence_of_components, hmd]
    norm_num
  · have hany : (["a", "b"] : List String).any
        (fun cid => ((([("a", 3)] : List (String × ℕ))).lookup cid).isSome) = true := by
      decide
    have hmap : (["a", "b"] : List String).map
        (fun cid => ((([("a", 3)] : List (String × ℕ))).lookup cid).getD 0) = [3, 0] := by
      decide
    simp only [claim_hierarchy_score, hany, if_true, hmap]
    norm_num

/-- C3 amended: for every non-empty matched-class set, the hierarchy-fit
sub-score averages only over the matched classes that are present in the
depth map (a matched class with no recorded depth is excluded from the
average, not counted as 0); it is 0 when no matched class has a known
depth, and the claim's all-classes formula is recovered exactly when
every matched class has a recorded depth. -/
theorem hierarchy_score_known_depths (matched_classes : List String)
    (depth_map : List (String × ℕ)) (hne : matched_classes ≠ []) :
    (matched_classes.filter (fun cid => (depth_map.lookup cid).isSome) = [] →
      hierarchy_score matched_classes depth_map = 0) ∧
    (matched_classes.filter (fun cid => (depth_map.lookup cid).isSome) ≠ [] →
      hierarchy_score matched_classes depth_map =
        (min (((((matched_classes.filter (fun cid => (depth_map.lookup cid).isSome)).map
            (fun cid => (depth_map.lookup cid).getD 0)).sum : ℕ) : ℚ) /
          (((matched_classes.filter
              (fun cid => (depth_map.lookup cid).isSome)).length : ℕ) : ℚ) / 3) 1) * 20) ∧
    ((∀ cid ∈ matched_classes, (depth_map.lookup cid).isSome) →
      hierarchy_score matched_classes depth_map =
        claim_hierarchy_score matched_classes depth_map) := by
  refine ⟨?_, ?_, ?_⟩
  · intro hfil
    simp [hierarchy_score, matched_depths, hfil]
  · intro hfil
    have hni : ¬ ((matched_classes.filter
        (fun cid => (depth_map.lookup cid).isSome)).map
          (fun cid => (depth_map.lookup cid).getD 0)).isEmpty = true := by
      simp only [List.isEmpty_eq_true, List.map_eq_nil_iff]
      exact hfil
    simp only [hierarchy_score, matched_depths, List.length_map]
    rw [if_neg hni]
  · intro hall
    have hfil : matched_classes.filter (fun cid => (depth_map.lookup cid).isSome) =
        matched_classes := by
      apply List.filter_eq_self.mpr
      intro a ha
      exact hall a ha
    have hany : matched_classes.any (fun cid => (depth_map.lookup cid).isSome) = true := by
      obtain ⟨c, cs, rfl⟩ : ∃ c cs, matched_classes = c :: cs := by
        cases matched_classes with
        | nil => exact absurd rfl hne
        | cons c cs => exact ⟨c, cs, rfl⟩
      simp only [List.any_cons, Bool.or_eq_true]
      exact Or.inl (hall c (by simp))
    have hni : ¬ (matched_classes.map
        (fun cid => (depth_map.lookup cid).getD 0)).isEmpty = true := by
      simp only [List.isEmpty_eq_true, List.map_eq_nil_iff]
      exact hne
    simp only [hierarchy_score, claim_hierarchy_score, matched_depths, hfil, hany, if_true,
      List.length_map]
    rw [if_neg hni]

/-- Witness for C3's amended theorem: with every matched class recorded
in the depth map, the code's score and the claim's formula agree. -/
theorem hierarchy_score_known_depths_witness :
    hierarchy_score ["a", "b"] [("a", 3), ("b", 1)] =
      claim_hierarchy_score ["a", "b"] [("a", 3), ("b", 1)] :=
  (hierarchy_score_known_depths ["a", "b"] [("a", 3), ("b", 1)]
    (by decide)).2.2 (by decide)

/-! ## Claim C4 (corrected): property alignment counting -/

/-- Counterexample graph for C4: class `c1` is the domain of two
properties `p1`, `p2`, both ranging over `c2`. -/
def G_c4 : OGraph :=
  { nodeIds := ["c1", "c2", "p1", "p2"],
    attr := fun id =>
      if id = "c1" then { ntype := "Class", domainOf := ["p1", "p2"] }
      else if id = "p1" then { ntype := "Property", domain := ["c1"], range := ["c2"] }
      else if id = "p2" then { ntype := "Property", domain := ["c1"], range := ["c2"] }
      else { ntype := "Class" } }

/-- C4 counterexample: with matched classes `c1, c2` in `G_c4`, the code
counts one aligned relation per (class, property) pair — the `break`
exits only the inner endpoint loop — giving count 2 and score 20, while
the claim's at-most-one-count-per-class reading gives count 1 and
score 10. -/
theorem alignment_claim_counterexample :
    alignment_score G_c4 ["c1", "c2"] = 20 ∧
    claim_alignment_score G_c4 ["c1", "c2"] = 10 ∧
    (20 : ℚ) ≠ 10 := by
  refine ⟨?_, ?_, by norm_num⟩
  · have har : aligned_relations G_c4 ["c1", "c2"] = 2 := by decide
    simp only [alignment_score, har]
    norm_num
  · have har : claim_aligned_relations G_c4 ["c1", "c2"] = 1 := by decide
    simp only [claim_alignment_score, har]
    norm_num

/-- C4 amended: the property-alignment sub-score is 0 with fewer than 2
matched classes; with at least 2 it equals `min(count, 2)/2 * 20` where
`count` sums, over the matched classes, the number of properties in the
class's `domainOf ++ rangeOf` lists whose other endpoint list contains a
distinct matched class — i.e. each matched class contributes at most one
count PER PROPERTY (the early exit is per property, on the first
aligning endpoint), not at most one count in total. -/
theorem alignment_score_per_property (G : OGraph) (matched_classes : List String) :
    (matched_classes.length ≤ 1 → alignment_score G matched_classes = 0) ∧
    (2 ≤ matched_classes.length →
      alignment_score G matched_classes =
        ((min ((matched_classes.map (fun cid =>
            (((G.attr cid).domainOf ++ (G.attr cid).rangeOf).filter
              (fun prop_id => prop_aligns G matched_classes cid prop_id)).length)).sum)
          2 : ℕ) : ℚ) / 2 * 20) := by
  constructor
  · intro hle
    simp only [alignment_score]
    have : ¬ matched_classes.length > 1 := by omega
    simp [this]
  · intro hge
    have hgt : matched_classes.length > 1 := by omega
    simp only [alignment_score, hgt, if_true]
    rw [← aligned_relations_eq_sum]
    by_cases har : aligned_relations G matched_classes > 0
    · simp [har]
    · have h0 : aligned_relations G matched_classes = 0 := by omega
      simp [h0]

/-- Witness for C4's amended theorem at the counterexample graph. -/
theorem alignment_score_per_property_witness :
    alignment_score G_c4 ["c1", "c2"] =
      ((min (((["c1", "c2"] : List String).map (fun cid =>
          (((G_c4.attr cid).domainOf ++ (G_c4.attr cid).rangeOf).filter
            (fun prop_id => prop_aligns G_c4 ["c1", "c2"] cid prop_id)).length)).sum)
        2 : ℕ) : ℚ) / 2 * 20 :=
  (alignment_score_per_property G_c4 ["c1", "c2"]).2 (by decide)

/-! ## Ontology loading (`src/model/ontology.py`, lines 6-16) -/

/-- An (subject, predicate, object) triple of the parsed ontology. -/
abbrev Triple := String × String × String

/-- Representation of the `rdf:type` predicate constant. -/
def rdf_type : String := "rdf:type"

/-- Representation of the `owl:Class` identifier. -/
def owl_Class : String := "owl:Class"

/-- Representation of the `owl:ObjectProperty` identifier. -/
def owl_ObjectProperty : String := "owl:ObjectProperty"

/-- Representation of the `owl:DatatypeProperty` identifier. -/
def owl_DatatypeProperty : String := "owl:DatatypeProperty"

/-- `set(g.subjects(p, o))`: the deduplicated subjects of all triples
with the given predicate and object. -/
def subjectsWith (g : List Triple) (p o : String) : List String :=
  ((g.filter (fun t => t.2.1 = p ∧ t.2.2 = o)).map (fun t => t.1)).dedup

/-- `load_ontology` of `ontology.py` lines 6-16.  The function extracts
the Class and Property subject sets and returns them together with the
triple graph; it contains no `raise` statement, so the embedded result
is always `Except.ok` (parse errors of the external rdflib call are out
of scope of the function body). -/
def load_ontology (g : List Triple) :
    Except String (List Triple × List String × List String) :=
  let classes := subjectsWith g rdf_type owl_Class
  let properties :=
    (subjectsWith g rdf_type owl_ObjectProperty ++
      subjectsWith g rdf_type owl_DatatypeProperty).dedup
  Except.ok (g, classes, properties)

/-- C6 counterexample: a triple source with no Class and no Property
subjects loads successfully (empty class and property sets) — the
claimed `OntologyLoadError` does not exist anywhere in the code and no
failure occurs. -/
theorem load_ontology_no_error_counterexample :
    load_ontology [] =
      Except.ok (([] : List Triple), ([] : List String), ([] : List String)) ∧
    (load_ontology []).isOk = true := by
  constructor <;> rfl

/-- C6 amended: `load_ontology` performs no validation and never fails:
for every triple source that yields no Class subjects and no Property
subjects it returns successfully with empty class and property sets, and
the pipeline proceeds to build the (empty) graph. -/
theorem load_ontology_total (g : List Triple)
    (hc : subjectsWith g rdf_type owl_Class = [])
    (ho : subjectsWith g rdf_type owl_ObjectProperty = [])
    (hd : subjectsWith g rdf_type owl_DatatypeProperty = []) :
    load_ontology g = Except.ok (g, [], []) := by
  simp [load_ontology, hc, ho, hd]

/-- Witness for C6's amended theorem at the empty triple source. -/
theorem load_ontology_total_witness :
    load_ontology [] = Except.ok (([] : List Triple), [], []) :=
  load_ontology_total [] (by decide) (by decide) (by decide)

/-! ## Mention-graph attach (`src/utils/extract_paper_attributes.py`) -/

/-- A paper document as read by `add_bidirectional_edges`: its id and its
`mentions` metadata list. -/
structure PaperDoc where
  id : String
  mentions : List String := []
deriving Repr, DecidableEq

/-- An ontology document: its id and its `mentioned_by` metadata entry;
`none` models an absent key. -/
structure OntoDoc where
  id : String
  mentioned_by : Option (List String) := none
deriving Repr, DecidableEq

/-- The dict update of `extract_paper_attributes.py` lines 113-115:
create the key with `[]` if absent, then append the paper id. -/
def assocAppend (m : List (String × List String)) (k v : String) :
    List (String × List String) :=
  if (m.lookup k).isSome then
    m.map (fun p => if p.1 = k then (p.1, p.2 ++ [v]) else p)
  else m ++ [(k, [v])]

/-- The reverse index `concept_to_papers` of
`extract_paper_attributes.py` lines 108-115. -/
def concept_to_papers (paper_docs : List PaperDoc) : List (String × List String) :=
  paper_docs.foldl
    (fun m paper =>
      paper.mentions.foldl (fun m concept_id => assocAppend m concept_id paper.id) m)
    []

/-- `add_bidirectional_edges` of `extract_paper_attributes.py`
lines 96-128: overwrite every ontology document's `mentioned_by` entry
with the reverse-index value, defaulting to the empty list. -/
def add_bidirectional_edges (ontology_docs : List OntoDoc)
    (paper_docs : List PaperDoc) : List OntoDoc :=
  let m := concept_to_papers paper_docs
  ontology_docs.map (fun d => { d with mentioned_by := some ((m.lookup d.id).getD []) })

lemma lookup_cons_pair {β : Type} (a k : String) (b : β) (es : List (String × β)) :
    List.lookup a ((k, b) :: es) = if a == k then some b else List.lookup a es := by
  rw [List.lookup_cons]
  cases a == k <;> rfl

lemma lookup_map_modify (m : List (String × List String)) (k : String)
    (f : List String → List String) (cid : String) (h : k ≠ cid) :
    ((m.map (fun p => if p.1 = k then (p.1, f p.2) else p)).lookup cid) = m.lookup cid := by
  induction m with
  | nil => rfl
  | cons p ps ih =>
      obtain ⟨pk, pv⟩ := p
      rw [List.map_cons]
      by_cases hp : pk = k
      · subst hp
        have hcd : (cid == pk) = false :=
          beq_eq_false_iff_ne.mpr (fun e => h (by rw [e]))
        simp only [if_pos rfl]
        rw [lookup_cons_pair, lookup_cons_pair, hcd]
        simp [ih]
        intro e
        exact absurd e (by simpa using hcd)
      · have hp' : ((pk, pv) : String × List String).1 = k ↔ pk = k := Iff.rfl
        simp only [hp', if_neg hp]
        rw [lookup_cons_pair, lookup_cons_pair]
        cases hcd : (cid == pk) <;> simp [hcd, ih]

lemma lookup_append_left_none (m₂ : List (String × List String)) :
    ∀ (m₁ : List (String × List String)) (cid : String),
      ((m₁ ++ m₂).lookup cid) =
        if (m₁.lookup cid).isSome then m₁.lookup cid else m₂.lookup cid := by
  intro m₁
  induction m₁ with
  | nil => intro cid; simp
  | cons p ps ih =>
      intro cid
      obtain ⟨pk, pv⟩ := p
      rw [List.cons_append, lookup_cons_pair, lookup_cons_pair]
      cases hcd : (cid == pk) with
      | true => simp
      | false => simpa using ih cid

lemma assocAppend_lookup_ne (m : List (String × List String)) (k v cid : String)
    (h : k ≠ cid) : ((assocAppend m k v).lookup cid) = m.lookup cid := by
  unfold assocAppend
  split
  · exact lookup_map_modify m k (fun l => l ++ [v]) cid h
  · rw [lookup_append_left_none]
    split
    · rfl
    · rename_i hnone
      rw [lookup_cons_pair]
      have hcd : (cid == k) = false :=
        beq_eq_false_iff_ne.mpr (fun e => h (by rw [e]))
      rw [hcd]
      simp only [Bool.false_eq_true, if_false]
      simpa using (Option.not_isSome_iff_eq_none.mp (by simpa using hnone)).symm

lemma mentions_fold_lookup_ne (pid : String) (cid : String) :
    ∀ (ms : List String) (m : List (String × List String)), cid ∉ ms →
      ((ms.foldl (fun m c => assocAppend m c pid) m).lookup cid) = m.lookup cid := by
  intro ms
  induction ms with
  | nil => intro m _; rfl
  | cons c cs ih =>
      intro m hnot
      rw [List.foldl_cons]
      have hc : c ≠ cid := fun h => hnot (h ▸ List.mem_cons_self c cs)
      rw [ih _ (fun h => hnot (List.mem_cons_of_mem c h))]
      exact assocAppend_lookup_ne m c pid cid hc

lemma concept_to_papers_lookup_none (paper_docs : List PaperDoc) (cid : String)
    (h : ∀ p ∈ paper_docs, cid ∉ p.mentions) :
    ((concept_to_papers paper_docs).lookup cid) = none := by
  suffices key : ∀ (pds : List PaperDoc) (m : List (String × List String)),
      (∀ p ∈ pds, cid ∉ p.mentions) →
      ((pds.foldl (fun m paper =>
          paper.mentions.foldl (fun m c => assocAppend m c paper.id) m) m).lookup cid) =
        m.lookup cid by
    have := key paper_docs [] h
    simpa [concept_to_papers] using this
  intro pds
  induction pds with
  | nil => intro m _; rfl
  | cons p ps ih =>
      intro m hnot
      rw [List.foldl_cons]
      rw [ih _ (fun q hq => hnot q (List.mem_cons_of_mem p hq))]
      exact mentions_fold_lookup_ne p.id cid p.mentions m (hnot p (List.mem_cons_self p ps))

/-- C9: running `add_bidirectional_edges` twice on identical inputs
yields the identical result (idempotent, no accumulation), and every
ontology document in the output carries a `mentioned_by` list — the
empty list, never an absent key, when no paper mentions its id. -/
theorem add_bidirectional_edges_idempotent_total (ontology_docs : List OntoDoc)
    (paper_docs : List PaperDoc) :
    add_bidirectional_edges (add_bidirectional_edges ontology_docs paper_docs)
        paper_docs =
      add_bidirectional_edges ontology_docs paper_docs ∧
    ∀ d ∈ add_bidirectional_edges ontology_docs paper_docs,
      (d.mentioned_by).isSome = true ∧
      ((∀ p ∈ paper_docs, d.id ∉ p.mentions) → d.mentioned_by = some []) := by
  constructor
  · simp only [add_bidirectional_edges, List.map_map]
    apply List.map_congr_left
    intro d _
    rfl
  · intro d hd
    simp only [add_bidirectional_edges, List.mem_map] at hd
    obtain ⟨d₀, _, rfl⟩ := hd
    constructor
    · rfl
    · intro hnm
      have hlook := concept_to_papers_lookup_none paper_docs d₀.id hnm
      simp only [hlook]
      rfl

/-- Witness for C9 on a one-concept, zero-paper input. -/
theorem add_bidirectional_edges_idempotent_total_witness :
    add_bidirectional_edges (add_bidirectional_edges [⟨"c1", none⟩] []) [] =
      add_bidirectional_edges [⟨"c1", none⟩] [] ∧
    ((⟨"c1", some []⟩ : OntoDoc).mentioned_by).isSome = true ∧
    (⟨"c1", some []⟩ : OntoDoc).mentioned_by = some [] := by
  have h := add_bidirectional_edges_idempotent_total [⟨"c1", none⟩] []
  refine ⟨h.1, ?_⟩
  have hm : (⟨"c1", some []⟩ : OntoDoc) ∈ add_bidirectional_edges [⟨"c1", none⟩] [] := by
    simp [add_bidirectional_edges, concept_to_papers, List.lookup]
  have h2 := h.2 _ hm
  exact ⟨h2.1, h2.2 (by intro p hp; simp at hp)⟩

/-! ## Concept matching (`src/model/graph_rag.py`, lines 72-91) -/

/-- A LangChain document as read by `identify_matched_concepts`: its id
and the metadata fields the function touches.  `mtype` is the metadata
`type` entry (`""` models an absent key), `mentions` the chunk's mention
list, `content` the page content. -/
structure Doc where
  id : String
  mtype : String := ""
  label : String := ""
  mentions : List String := []
  content : String := ""
deriving Repr, DecidableEq

/-- A regex word character (`\w`): alphanumeric or underscore. -/
def isWordChar (c : Char) : Bool := c.isAlphanum || c == '_'

/-- Word-character test of an optional character; out-of-bounds counts as
a non-word character. -/
def optWord : Option Char → Bool
  | none => false
  | some c => isWordChar c

/-- A `\b` word boundary holds between two adjacent positions iff exactly
one side is a word character. -/
def boundaryOk (a b : Option Char) : Bool := optWord a != optWord b

/-- The literal pattern matches at the current position (with `prev` the
character just before it): it is a prefix of the remaining text and both
ends sit on word boundaries. -/
def matchesHere (prev : Option Char) (pat text : List Char) : Bool :=
  pat.isPrefixOf text && boundaryOk prev pat.head? &&
    boundaryOk pat.getLast? (text.drop pat.length).head?

/-- `re.search(rf"\b{re.escape(pat)}\b", text)`: the escaped pattern is a
literal, so the search succeeds iff it matches at some position. -/
def reSearchWord (pat : List Char) : Option Char → List Char → Bool
  | prev, [] => matchesHere prev pat []
  | prev, c :: rest => matchesHere prev pat (c :: rest) || reSearchWord pat (some c) rest

/-- `s.lower()` as a character list. -/
def lowerChars (s : String) : List Char := s.toList.map Char.toLower

/-- The inner loop of `identify_matched_concepts` (lines 81-89): the
FIRST document that is a `PaperChunk` and mentions `cid` (the `break`
ends the scan after it). -/
def firstMentioningChunk (docs : List Doc) (cid : String) : Option Doc :=
  docs.find? (fun chunk => chunk.mtype == "PaperChunk" && chunk.mentions.contains cid)

/-- The test of line 85: `if label and re.search(rf"\b{re.escape(label)}\b", text)`
on the lower-cased label and chunk text. -/
def label_hit (doc chunk_doc : Doc) : Bool :=
  !(lowerChars doc.label).isEmpty &&
    reSearchWord (lowerChars doc.label) none (lowerChars chunk_doc.content)

/-- `set.add`: append the element unless already present. -/
def insertSet (l : List String) (x : String) : List String :=
  if l.contains x then l else l ++ [x]

/-- Body of the `for doc in results` loop of lines 77-89. -/
def identify_step (docs : List Doc) (acc : List String × List String) (doc : Doc) :
    List String × List String :=
  if doc.mtype = "Class" ∨ doc.mtype = "Property" then
    match firstMentioningChunk docs doc.id with
    | some chunk_doc =>
        if label_hit doc chunk_doc then (insertSet acc.1 doc.id, acc.2)
        else (acc.1, insertSet acc.2 doc.id)
    | none => acc
  else acc

/-- Loop of `identify_matched_concepts` over the retrieval results. -/
def identify_loop (docs : List Doc) : List Doc → List String × List String →
    List String × List String
  | [], acc => acc
  | doc :: rest, acc => identify_loop docs rest (identify_step docs acc doc)

/-- `identify_matched_concepts` of `graph_rag.py` lines 72-91, returning
`(direct_label_hits, synonym_hits)`. -/
def identify_matched_concepts (results docs : List Doc) : List String × List String :=
  identify_loop docs results ([], [])

/-- Derived classification of one result document: `none` when the
document is not a Class/Property or no paper chunk mentions it,
`some b` with `b` the label-hit test against its first mentioning
chunk otherwise. -/
def classify (docs : List Doc) (d : Doc) : Option Bool :=
  if d.mtype = "Class" ∨ d.mtype = "Property" then
    (firstMentioningChunk docs d.id).map (fun chunk_doc => label_hit d chunk_doc)
  else none

lemma mem_insertSet (l : List String) (x cid : String) :
    cid ∈ insertSet l x ↔ cid ∈ l ∨ cid = x := by
  unfold insertSet
  split
  · rename_i hc
    have hx : x ∈ l := by simpa using hc
    constructor
    · exact Or.inl
    · rintro (h | rfl)
      · exact h
      · exact hx
  · simp

lemma identify_step_classify (docs : List Doc) (acc : List String × List String)
    (doc : Doc) :
    identify_step docs acc doc =
      match classify docs doc with
      | some true => (insertSet acc.1 doc.id, acc.2)
      | some false => (acc.1, insertSet acc.2 doc.id)
      | none => acc := by
  unfold identify_step classify
  split
  · cases firstMentioningChunk docs doc.id with
    | none => rfl
    | some chunk_doc =>
        cases hlh : label_hit doc chunk_doc <;> simp [hlh]
  · rfl

/-- Membership characterisation of the two hit sets produced by the
result loop: an id is in a set iff it was there already or some result
document with that id classifies accordingly. -/
lemma identify_loop_mem (docs : List Doc) :
    ∀ (rs : List Doc) (acc : List String × List String) (cid : String),
      (cid ∈ (identify_loop docs rs acc).1 ↔
        cid ∈ acc.1 ∨ ∃ d ∈ rs, d.id = cid ∧ classify docs d = some true) ∧
      (cid ∈ (identify_loop docs rs acc).2 ↔
        cid ∈ acc.2 ∨ ∃ d ∈ rs, d.id = cid ∧ classify docs d = some false) := by
  intro rs
  induction rs with
  | nil => intro acc cid; simp [identify_loop]
  | cons d rest ih =>
      intro acc cid
      rw [identify_loop, identify_step_classify]
      cases hcl : classify docs d with
      | none =>
          refine ⟨?_, ?_⟩
          · rw [(ih acc cid).1]
            constructor
            · rintro (h | ⟨x, hx, hxi, hxc⟩)
              · exact Or.inl h
              · exact Or.inr ⟨x, List.mem_cons_of_mem d hx, hxi, hxc⟩
            · rintro (h | ⟨x, hx, hxi, hxc⟩)
              · exact Or.inl h
              · rcases List.mem_cons.mp hx with rfl | hx'
                · rw [hcl] at hxc; cases hxc
                · exact Or.inr ⟨x, hx', hxi, hxc⟩
          · rw [(ih acc cid).2]
            constructor
            · rintro (h | ⟨x, hx, hxi, hxc⟩)
              · exact Or.inl h
              · exact Or.inr ⟨x, List.mem_cons_of_mem d hx, hxi, hxc⟩
            · rintro (h | ⟨x, hx, hxi, hxc⟩)
              · exact Or.inl h
              · rcases List.mem_cons.mp hx with rfl | hx'
                · rw [hcl] at hxc; cases hxc
                · exact Or.inr ⟨x, hx', hxi, hxc⟩
      | some b =>
        cases b with
        | true =>
          refine ⟨?_, ?_⟩
          · rw [(ih (insertSet acc.1 d.id, acc.2) cid).1]
            simp only [mem_insertSet]
            constructor
            · rintro ((h | rfl) | ⟨x, hx, hxi, hxc⟩)
              · exact Or.inl h
              · exact Or.inr ⟨d, List.mem_cons_self d rest, rfl, hcl⟩
              · exact Or.inr ⟨x, List.mem_cons_of_mem d hx, hxi, hxc⟩
            · rintro (h | ⟨x, hx, hxi, hxc⟩)
              · exact Or.inl (Or.inl h)
              · rcases List.mem_cons.mp hx with rfl | hx'
                · exact Or.inl (Or.inr hxi.symm)
                · exact Or.inr ⟨x, hx', hxi, hxc⟩
          · rw [(ih (insertSet acc.1 d.id, acc.2) cid).2]
            constructor
            · rintro (h | ⟨x, hx, hxi, hxc⟩)
              · exact Or.inl h
              · exact Or.inr ⟨x, List.mem_cons_of_mem d hx, hxi, hxc⟩
            · rintro (h | ⟨x, hx, hxi, hxc⟩)
              · exact Or.inl h
              · rcases List.mem_cons.mp hx with rfl | hx'
                · rw [hcl] at hxc; cases hxc
                · exact Or.inr ⟨x, hx', hxi, hxc⟩
        | false =>
          refine ⟨?_, ?_⟩
          · rw [(ih (acc.1, insertSet acc.2 d.id) cid).1]
            constructor
            · rintro (h | ⟨x, hx, hxi, hxc⟩)
              · exact Or.inl h
              · exact Or.inr ⟨x, List.mem_cons_of_mem d hx, hxi, hxc⟩
            · rintro (h | ⟨x, hx, hxi, hxc⟩)
              · exact Or.inl h
              · rcases List.mem_cons.mp hx with rfl | hx'
                · rw [hcl] at hxc; cases hxc
                · exact Or.inr ⟨x, hx', hxi, hxc⟩
          · rw [(ih (acc.1, insertSet acc.2 d.id) cid).2]
            simp only [mem_insertSet]
            constructor
            · rintro ((h | rfl) | ⟨x, hx, hxi, hxc⟩)
              · exact Or.inl h
              · exact Or.inr ⟨d, List.mem_cons_self d rest, rfl, hcl⟩
              · exact Or.inr ⟨x, List.mem_cons_of_mem d hx, hxi, hxc⟩
            · rintro (h | ⟨x, hx, hxi, hxc⟩)
              · exact Or.inl (Or.inl h)
              · rcases List.mem_cons.mp hx with rfl | hx'
                · exact Or.inl (Or.inr hxi.symm)
                · exact Or.inr ⟨x, hx', hxi, hxc⟩

lemma identify_mem (results docs : List Doc) (cid : String) :
    (cid ∈ (identify_matched_concepts results docs).1 ↔
      ∃ d ∈ results, d.id = cid ∧ classify docs d = some true) ∧
    (cid ∈ (identify_matched_concepts results docs).2 ↔
      ∃ d ∈ results, d.id = cid ∧ classify docs d = some false) := by
  have h := identify_loop_mem docs results ([], []) cid
  simpa [identify_matched_concepts] using h

/-- Two result documents with the same id and label classify the same
way. -/
lemma classify_some_eq (docs : List Doc) (d d' : Doc) (hid : d.id = d'.id)
    (hlb : d.label = d'.label) (b b' : Bool) (hb : classify docs d = some b)
    (hb' : classify docs d' = some b') : b = b' := by
  unfold classify at hb hb'
  split at hb
  · split at hb'
    · rw [hid] at hb
      cases hch : firstMentioningChunk docs d'.id with
      | none => rw [hch] at hb; cases hb
      | some ch =>
          rw [hch] at hb hb'
          simp only [Option.map, Option.some.injEq] at hb hb'
          have hlab : label_hit d ch = label_hit d' ch := by
            unfold label_hit
            rw [hlb]
          rw [← hb, ← hb', hlab]
    · cases hb'
  · cases hb

lemma label_hit_iff (d ch : Doc) :
    label_hit d ch = true ↔
      (lowerChars d.label ≠ [] ∧
        reSearchWord (lowerChars d.label) none (lowerChars ch.content) = true) := by
  unfold label_hit
  simp [List.isEmpty_iff]

/-- C8: for every retrieved Class/Property candidate with a first
mentioning paper chunk, the classifier uses exactly that chunk: the
candidate lands in `direct_label_hits` iff its (non-empty) lower-cased
label occurs as a whole word in that chunk's lower-cased text, and in
`synonym_hits` iff it does not; the two sets are disjoint.  Requires
result documents with equal ids to carry equal labels (true of retriever
output, which returns stored documents). -/
theorem identify_matched_concepts_first_match (results docs : List Doc)
    (hcons : ∀ d ∈ results, ∀ d' ∈ results, d.id = d'.id → d.label = d'.label) :
    (∀ cid, cid ∈ (identify_matched_concepts results docs).1 →
      cid ∉ (identify_matched_concepts results docs).2) ∧
    (∀ d ∈ results, (d.mtype = "Class" ∨ d.mtype = "Property") →
      ∀ chunk_doc, firstMentioningChunk docs d.id = some chunk_doc →
        (d.id ∈ (identify_matched_concepts results docs).1 ↔
          (lowerChars d.label ≠ [] ∧
            reSearchWord (lowerChars d.label) none (lowerChars chunk_doc.content) = true)) ∧
        (d.id ∈ (identify_matched_concepts results docs).2 ↔
          ¬ (lowerChars d.label ≠ [] ∧
            reSearchWord (lowerChars d.label) none (lowerChars chunk_doc.content) = true))) := by
  constructor
  · intro cid h1 h2
    obtain ⟨d1, hd1, hi1, hc1⟩ := (identify_mem results docs cid).1.mp h1
    obtain ⟨d2, hd2, hi2, hc2⟩ := (identify_mem results docs cid).2.mp h2
    have hlb := hcons d1 hd1 d2 hd2 (hi1.trans hi2.symm)
    have := classify_some_eq docs d1 d2 (hi1.trans hi2.symm) hlb true false hc1 hc2
    cases this
  · intro d hd htype chunk_doc hch
    have hcd : classify docs d = some (label_hit d chunk_doc) := by
      unfold classify
      rw [if_pos htype, hch]
      rfl
    constructor
    · constructor
      · intro hmem
        obtain ⟨d2, hd2, hi2, hc2⟩ := (identify_mem results docs d.id).1.mp hmem
        have hlb := hcons d2 hd2 d hd hi2
        have hbb := classify_some_eq docs d2 d hi2 hlb true (label_hit d chunk_doc) hc2 hcd
        exact (label_hit_iff d chunk_doc).mp hbb.symm
      · intro hcond
        have hlh : label_hit d chunk_doc = true := (label_hit_iff d chunk_doc).mpr hcond
        exact (identify_mem results docs d.id).1.mpr ⟨d, hd, rfl, by rw [hcd, hlh]⟩
    · constructor
      · intro hmem
        obtain ⟨d2, hd2, hi2, hc2⟩ := (identify_mem results docs d.id).2.mp hmem
        have hlb := hcons d2 hd2 d hd hi2
        have hbb := classify_some_eq docs d2 d hi2 hlb false (label_hit d chunk_doc) hc2 hcd
        intro hcond
        have hlh : label_hit d chunk_doc = true := (label_hit_iff d chunk_doc).mpr hcond
        rw [hlh] at hbb
        cases hbb
      · intro hcond
        have hlh : label_hit d chunk_doc = false := by
          cases hb : label_hit d chunk_doc
          · rfl
          · exact absurd ((label_hit_iff d chunk_doc).mp hb) hcond
        exact (identify_mem results docs d.id).2.mpr ⟨d, hd, rfl, by rw [hcd, hlh]⟩

/-- The retrieved concept of the spec's scenario: label "Vaccination",
mentioned by a chunk whose text contains the label verbatim. -/
def vacc_doc : Doc := { id := "v1", mtype := "Class", label := "Vaccination" }

/-- The paper chunk of the spec's scenario. -/
def vacc_chunk : Doc :=
  { id := "ch1", mtype := "PaperChunk", mentions := ["v1"],
    content := "Mass vaccination campaigns." }

/-- Witness for C8: the scenario concept is classified label-hit, not
synonym-hit. -/
theorem identify_matched_concepts_first_match_witness :
    "v1" ∈ (identify_matched_concepts [vacc_doc] [vacc_chunk]).1 ∧
    "v1" ∉ (identify_matched_concepts [vacc_doc] [vacc_chunk]).2 := by
  have h := identify_matched_concepts_first_match [vacc_doc] [vacc_chunk]
    (by
      intro d hd d' hd' _
      simp only [List.mem_singleton] at hd hd'
      rw [hd, hd'])
  have h2 := h.2 vacc_doc (by simp) (Or.inl rfl) vacc_chunk (by decide)
  have hmem : "v1" ∈ (identify_matched_concepts [vacc_doc] [vacc_chunk]).1 :=
    h2.1.mpr ⟨by decide, by decide⟩
  exact ⟨hmem, h.1 "v1" hmem⟩

/-- C10: a retrieved Class/Property candidate that no paper chunk
mentions is classified into neither hit set, and the reporting layer
prints it with the third match type "embedding". -/
theorem unmentioned_concept_reported_as_embedding (results docs : List Doc)
    (cid : String)
    (h : ∀ chunk_doc ∈ docs, chunk_doc.mtype = "PaperChunk" → cid ∉ chunk_doc.mentions) :
    cid ∉ (identify_matched_concepts results docs).1 ∧
    cid ∉ (identify_matched_concepts results docs).2 ∧
    match_type_for cid (identify_matched_concepts results docs).1
      (identify_matched_concepts results docs).2 = "embedding" := by
  have hfm : firstMentioningChunk docs cid = none := by
    apply List.find?_eq_none.mpr
    intro ch hch
    simp only [Bool.and_eq_true, beq_iff_eq, not_and]
    intro hpc
    have := h ch hch hpc
    simpa using this
  have hnone : ∀ d : Doc, d.id = cid → classify docs d = none := by
    intro d hdi
    unfold classify
    split
    · rw [hdi, hfm]
      rfl
    · rfl
  have h1 : cid ∉ (identify_matched_concepts results docs).1 := by
    intro hmem
    obtain ⟨d2, _, hi2, hc2⟩ := (identify_mem results docs cid).1.mp hmem
    rw [hnone d2 hi2] at hc2
    cases hc2
  have h2 : cid ∉ (identify_matched_concepts results docs).2 := by
    intro hmem
    obtain ⟨d2, _, hi2, hc2⟩ := (identify_mem results docs cid).2.mp hmem
    rw [hnone d2 hi2] at hc2
    cases hc2
  refine ⟨h1, h2, ?_⟩
  simp [match_type_for, h1, h2]

/-- Witness for C10: a retrieved concept with no mentioning chunk gets
match type "embedding". -/
theorem unmentioned_concept_reported_as_embedding_witness :
    "x1" ∉ (identify_matched_concepts [⟨"x1", "Class", "X", [], ""⟩] []).1 ∧
    "x1" ∉ (identify_matched_concepts [⟨"x1", "Class", "X", [], ""⟩] []).2 ∧
    match_type_for "x1" (identify_matched_concepts [⟨"x1", "Class", "X", [], ""⟩] []).1
      (identify_matched_concepts [⟨"x1", "Class", "X", [], ""⟩] []).2 = "embedding" :=
  unmentioned_concept_reported_as_embedding [⟨"x1", "Class", "X", [], ""⟩] [] "x1"
    (by intro ch hch; simp at hch)

/-! ## Graph construction (`src/model/ontology.py`, lines 19-96) -/

/-- Representation of the `rdfs:subClassOf` predicate. -/
def rdfs_subClassOf : String := "rdfs:subClassOf"

/-- Representation of the `owl:equivalentClass` predicate. -/
def owl_equivalentClass : String := "owl:equivalentClass"

/-- Representation of the `rdfs:domain` predicate. -/
def rdfs_domain : String := "rdfs:domain"

/-- Representation of the `rdfs:range` predicate. -/
def rdfs_range : String := "rdfs:range"

/-- Representation of the `rdfs:label` predicate. -/
def rdfs_label : String := "rdfs:label"

/-- Representation of the skos `altLabel` predicate. -/
def skos_altLabel : String := "skos:altLabel"

/-- Representation of the OBO `hasExactSynonym` predicate. -/
def obo_hasExactSynonym : String := "obo:hasExactSynonym"

/-- Representation of the skos `definition` predicate. -/
def skos_definition : String := "skos:definition"

/-- Representation of the `rdfs:comment` predicate. -/
def rdfs_comment : String := "rdfs:comment"

/-- `get_literal` of `ontology.py` lines 19-25: the object of the first
matching triple, if any. -/
def get_literal (g : List Triple) (s p : String) : Option String :=
  ((g.filter (fun t => t.1 = s ∧ t.2.1 = p)).map (fun t => t.2.2)).head?

/-- `cls.split('/')[-1].split('#')[-1]`: the trailing fragment of an
identifier. -/
def trailing_fragment (s : String) : String :=
  (((s.splitOn "/").getLastD s).splitOn "#").getLastD s

/-- Python's `a or b` on an optional string: `b` when `a` is `None` or
empty (falsy). -/
def py_or_str (a : Option String) (b : String) : String :=
  match a with
  | none => b
  | some s => if s = "" then b else s

/-- Python's `a or b` on two optional strings. -/
def py_or_opt (a b : Option String) : Option String :=
  match a with
  | none => b
  | some s => if s = "" then b else some s

/-- `G.add_node`: record the id (preserving insertion order) and set its
attribute dict. -/
def addGraphNode (G : OGraph) (id : String) (nd : NodeData) : OGraph :=
  { G with
    nodeIds := if G.nodeIds.contains id then G.nodeIds else G.nodeIds ++ [id],
    attr := fun x => if x = id then nd else G.attr x }

/-- In-place attribute update of one existing node
(`G.nodes[id].setdefault(...).append(...)`). -/
def updAttr (G : OGraph) (id : String) (f : NodeData → NodeData) : OGraph :=
  { G with attr := fun x => if x = id then f (G.attr x) else G.attr x }

/-- `G.add_edge(...)` calls, in order. -/
def addEdges (G : OGraph) (es : List (String × String × String)) : OGraph :=
  { G with edges := G.edges ++ es }

/-- Node creation for one class, `ontology.py` lines 33-47. -/
def add_class_node (g : List Triple) (G : OGraph) (cls : String) : OGraph :=
  let label := py_or_str (get_literal g cls rdfs_label) (trailing_fragment cls)
  let synonyms :=
    ((g.filter (fun t => t.1 = cls ∧ t.2.1 = skos_altLabel)).map (fun t => t.2.2)) ++
      ((g.filter (fun t => t.1 = cls ∧ t.2.1 = obo_hasExactSynonym)).map (fun t => t.2.2))
  let defn := py_or_opt (get_literal g cls skos_definition) (get_literal g cls rdfs_comment)
  let G' := addGraphNode G cls { ntype := "Class", label := label, synonyms := synonyms }
  match defn with
  | some d =>
      if d = "" then G'
      else updAttr G' cls (fun nd => { nd with definition := some d })
  | none => G'

/-- Node creation for one property, `ontology.py` lines 50-52. -/
def add_property_node (g : List Triple) (G : OGraph) (prop : String) : OGraph :=
  let label := py_or_str (get_literal g prop rdfs_label) (trailing_fragment prop)
  addGraphNode G prop { ntype := "Property", label := label }

/-- One subclass triple of `ontology.py` lines 64-70: record the pair of
mirrored attributes and the two edges, but only when the parent is an
existing node. -/
def add_subclass_edge (cls : String) (G : OGraph) (t : Triple) : OGraph :=
  let parent := t.2.2
  if G.nodeIds.contains parent then
    addEdges
      (updAttr (updAttr G cls (fun nd => { nd with parents := nd.parents ++ [parent] }))
        parent (fun nd => { nd with children := nd.children ++ [cls] }))
      [(cls, parent, "subClassOf"), (parent, cls, "hasSubClass")]
  else G

/-- One equivalent-class triple of `ontology.py` lines 73-79. -/
def add_equivalent_edge (cls : String) (G : OGraph) (t : Triple) : OGraph :=
  let eqc := t.2.2
  if G.nodeIds.contains eqc then
    addEdges
      (updAttr
        (updAttr G cls (fun nd => { nd with equivalentClasses := nd.equivalentClasses ++ [eqc] }))
        eqc (fun nd => { nd with equivalentClasses := nd.equivalentClasses ++ [cls] }))
      [(cls, eqc, "equivalentClass"), (eqc, cls, "equivalentClass")]
  else G

/-- One domain triple of `ontology.py` lines 85-90. -/
def add_domain_edge (prop : String) (G : OGraph) (t : Triple) : OGraph :=
  let dom := t.2.2
  if G.nodeIds.contains dom then
    addEdges
      (updAttr (updAttr G prop (fun nd => { nd with domain := nd.domain ++ [dom] }))
        dom (fun nd => { nd with domainOf := nd.domainOf ++ [prop] }))
      [(prop, dom, "domain"), (dom, prop, "domainOf")]
  else G

/-- One range triple of `ontology.py` lines 91-96. -/
def add_range_edge (prop : String) (G : OGraph) (t : Triple) : OGraph :=
  let rng := t.2.2
  if G.nodeIds.contains rng then
    addEdges
      (updAttr (updAttr G prop (fun nd => { nd with range := nd.range ++ [rng] }))
        rng (fun nd => { nd with rangeOf := nd.rangeOf ++ [prop] }))
      [(prop, rng, "range"), (rng, prop, "rangeOf")]
  else G

/-- `add_class_relationships` of `ontology.py` lines 61-79: the subclass
loop over all classes, then the equivalence loop. -/
def add_class_relationships (g : List Triple) (G : OGraph) (classes : List String) :
    OGraph :=
  let G1 := classes.foldl (fun G cls =>
    (g.filter (fun t => t.1 = cls ∧ t.2.1 = rdfs_subClassOf)).foldl
      (add_subclass_edge cls) G) G
  classes.foldl (fun G cls =>
    (g.filter (fun t => t.1 = cls ∧ t.2.1 = owl_equivalentClass)).foldl
      (add_equivalent_edge cls) G) G1

/-- `add_property_relationships` of `ontology.py` lines 82-96: per
property, the domain loop then the range loop. -/
def add_property_relationships (g : List Triple) (G : OGraph) (properties : List String) :
    OGraph :=
  properties.foldl (fun G prop =>
    let Gd := (g.filter (fun t => t.1 = prop ∧ t.2.1 = rdfs_domain)).foldl
      (add_domain_edge prop) G
    (g.filter (fun t => t.1 = prop ∧ t.2.1 = rdfs_range)).foldl
      (add_range_edge prop) Gd) G

/-- `build_ontology_graph` of `ontology.py` lines 28-58. -/
def build_ontology_graph (g : List Triple) (classes properties : List String) : OGraph :=
  let G0 := classes.foldl (add_class_node g) {}
  let G1 := properties.foldl (add_property_node g) G0
  let G2 := add_class_relationships g G1 classes
  add_property_relationships g G2 properties

/-- The mirror-and-closure invariant maintained by the relationship
phases: every hierarchy attribute is mirrored by its inverse and every
recorded endpoint is an existing node. -/
structure MirrorClosed (G : OGraph) : Prop where
  pc : ∀ a b, b ∈ (G.attr a).parents ↔ a ∈ (G.attr b).children
  eqs : ∀ a b, b ∈ (G.attr a).equivalentClasses → a ∈ (G.attr b).equivalentClasses
  dom : ∀ c p, p ∈ (G.attr c).domainOf ↔ c ∈ (G.attr p).domain
  rng : ∀ c p, p ∈ (G.attr c).rangeOf ↔ c ∈ (G.attr p).range
  pN : ∀ a b, b ∈ (G.attr a).parents → a ∈ G.nodeIds ∧ b ∈ G.nodeIds
  eN : ∀ a b, b ∈ (G.attr a).equivalentClasses → a ∈ G.nodeIds ∧ b ∈ G.nodeIds
  dN : ∀ c p, c ∈ (G.attr p).domain → c ∈ G.nodeIds ∧ p ∈ G.nodeIds
  rN : ∀ c p, c ∈ (G.attr p).range → c ∈ G.nodeIds ∧ p ∈ G.nodeIds

lemma addEdges_attr (G : OGraph) (es : List (String × String × String)) :
    (addEdges G es).attr = G.attr := rfl

lemma addEdges_nodeIds (G : OGraph) (es : List (String × String × String)) :
    (addEdges G es).nodeIds = G.nodeIds := rfl

lemma updAttr_nodeIds (G : OGraph) (id : String) (f : NodeData → NodeData) :
    (updAttr G id f).nodeIds = G.nodeIds := rfl

lemma double_upd_field (G : OGraph) (u v : String) (f₁ f₂ : NodeData → NodeData)
    (F : NodeData → List String) (l₁ l₂ : List String)
    (h₁ : ∀ nd, F (f₁ nd) = F nd ++ l₁) (h₂ : ∀ nd, F (f₂ nd) = F nd ++ l₂) (x : String) :
    F ((updAttr (updAttr G u f₁) v f₂).attr x) =
      F (G.attr x) ++ (if x = u then l₁ else []) ++ (if x = v then l₂ else []) := by
  by_cases hv : x = v
  · subst hv
    by_cases hu : x = u
    · subst hu
      simp [updAttr, h₁, h₂]
    · simp [updAttr, hu, h₂]
  · by_cases hu : x = u
    · subst hu
      simp [updAttr, hv, h₁]
    · simp [updAttr, hv, hu]

lemma double_upd_field_same (G : OGraph) (u v : String) (f₁ f₂ : NodeData → NodeData)
    {β : Type} (F : NodeData → β)
    (h₁ : ∀ nd, F (f₁ nd) = F nd) (h₂ : ∀ nd, F (f₂ nd) = F nd) (x : String) :
    F ((updAttr (updAttr G u f₁) v f₂).attr x) = F (G.attr x) := by
  by_cases hv : x = v
  · subst hv
    by_cases hu : x = u
    · subst hu
      simp [updAttr, h₁, h₂]
    · simp [updAttr, hu, h₂]
  · by_cases hu : x = u
    · subst hu
      simp [updAttr, hv, h₁]
    · simp [updAttr, hv, hu]

lemma mirror_pair_append (P C : String → List String) (u v : String)
    (h : ∀ a b, b ∈ P a ↔ a ∈ C b) (a b : String) :
    (b ∈ P a ++ (if a = u then [v] else []) ↔ a ∈ C b ++ (if b = v then [u] else [])) := by
  simp only [List.mem_append]
  constructor
  · rintro (hp | hx)
    · exact Or.inl ((h a b).mp hp)
    · by_cases hau : a = u
      · rw [if_pos hau] at hx
        simp only [List.mem_singleton] at hx
        right
        rw [if_pos hx]
        simp [hau]
      · rw [if_neg hau] at hx
        simp at hx
  · rintro (hc | hx)
    · exact Or.inl ((h a b).mpr hc)
    · by_cases hbv : b = v
      · rw [if_pos hbv] at hx
        simp only [List.mem_singleton] at hx
        right
        rw [if_pos hx]
        simp [hbv]
      · rw [if_neg hbv] at hx
        simp at hx

lemma closed_pair_append (P : String → List String) (N : List String) (u v : String)
    (hu : u ∈ N) (hv : v ∈ N) (h : ∀ a b, b ∈ P a → a ∈ N ∧ b ∈ N) (a b : String) :
    b ∈ P a ++ (if a = u then [v] else []) → a ∈ N ∧ b ∈ N := by
  intro hx
  rcases List.mem_append.mp hx with hp | hq
  · exact h a b hp
  · by_cases hau : a = u
    · rw [if_pos hau] at hq
      simp only [List.mem_singleton] at hq
      exact ⟨hau ▸ hu, hq ▸ hv⟩
    · rw [if_neg hau] at hq
      simp at hq

lemma symm_append (E : String → List String) (u v : String)
    (h : ∀ a b, b ∈ E a → a ∈ E b) (a b : String)
    (hx : b ∈ E a ++ (if a = u then [v] else []) ++ (if a = v then [u] else [])) :
    a ∈ E b ++ (if b = u then [v] else []) ++ (if b = v then [u] else []) := by
  simp only [List.mem_append] at hx ⊢
  rcases hx with (he | h1) | h2
  · exact Or.inl (Or.inl (h a b he))
  · by_cases hau : a = u
    · rw [if_pos hau] at h1
      simp only [List.mem_singleton] at h1
      right
      rw [if_pos h1]
      simp [hau]
    · rw [if_neg hau] at h1
      simp at h1
  · by_cases hav : a = v
    · rw [if_pos hav] at h2
      simp only [List.mem_singleton] at h2
      left; right
      rw [if_pos h2]
      simp [hav]
    · rw [if_neg hav] at h2
      simp at h2

lemma closed_symm_append (E : String → List String) (N : List String) (u v : String)
    (hu : u ∈ N) (hv : v ∈ N) (h : ∀ a b, b ∈ E a → a ∈ N ∧ b ∈ N) (a b : String) :
    b ∈ E a ++ (if a = u then [v] else []) ++ (if a = v then [u] else []) →
      a ∈ N ∧ b ∈ N := by
  intro hx
  simp only [List.mem_append] at hx
  rcases hx with (he | h1) | h2
  · exact h a b he
  · by_cases hau : a = u
    · rw [if_pos hau] at h1
      simp only [List.mem_singleton] at h1
      exact ⟨hau ▸ hu, h1 ▸ hv⟩
    · rw [if_neg hau] at h1
      simp at h1
  · by_cases hav : a = v
    · rw [if_pos hav] at h2
      simp only [List.mem_singleton] at h2
      exact ⟨hav ▸ hv, h2 ▸ hu⟩
    · rw [if_neg hav] at h2
      simp at h2

lemma add_subclass_edge_inv (cls : String) (G : OGraph) (t : Triple)
    (hG : MirrorClosed G) (hcls : cls ∈ G.nodeIds) :
    MirrorClosed (add_subclass_edge cls G t) := by
  simp only [add_subclass_edge]
  split
  · rename_i hparc
    have hpar : t.2.2 ∈ G.nodeIds := by simpa using hparc
    have hp : ∀ x, (((updAttr (updAttr G cls
        (fun nd => { nd with parents := nd.parents ++ [t.2.2] })) t.2.2
        (fun nd => { nd with children := nd.children ++ [cls] })).attr x).parents) =
        (G.attr x).parents ++ (if x = cls then [t.2.2] else []) := by
      intro x
      have h := double_upd_field G cls t.2.2
        (fun nd => { nd with parents := nd.parents ++ [t.2.2] })
        (fun nd => { nd with children := nd.children ++ [cls] })
        (fun nd => nd.parents) [t.2.2] []
        (fun nd => rfl) (fun nd => by simp) x
      simpa using h
    have hc : ∀ x, (((updAttr (updAttr G cls
        (fun nd => { nd with parents := nd.parents ++ [t.2.2] })) t.2.2
        (fun nd => { nd with children := nd.children ++ [cls] })).attr x).children) =
        (G.attr x).children ++ (if x = t.2.2 then [cls] else []) := by
      intro x
      have h := double_upd_field G cls t.2.2
        (fun nd => { nd with parents := nd.parents ++ [t.2.2] })
        (fun nd => { nd with children := nd.children ++ [cls] })
        (fun nd => nd.children) [] [cls]
        (fun nd => by simp) (fun nd => rfl) x
      simpa using h
    have he : ∀ x, (((updAttr (updAttr G cls
        (fun nd => { nd with parents := nd.parents ++ [t.2.2] })) t.2.2
        (fun nd => { nd with children := nd.children ++ [cls] })).attr x).equivalentClasses) =
        (G.attr x).equivalentClasses :=
      double_upd_field_same G cls t.2.2 _ _ (fun nd => nd.equivalentClasses)
        (fun nd => rfl) (fun nd => rfl)
    have hdo : ∀ x, (((updAttr (updAttr G cls
        (fun nd => { nd with parents := nd.parents ++ [t.2.2] })) t.2.2
        (fun nd => { nd with children := nd.children ++ [cls] })).attr x).domainOf) =
        (G.attr x).domainOf :=
      double_upd_field_same G cls t.2.2 _ _ (fun nd => nd.domainOf)
        (fun nd => rfl) (fun nd => rfl)
    have hdm : ∀ x, (((updAttr (updAttr G cls
        (fun nd => { nd with parents := nd.parents ++ [t.2.2] })) t.2.2
        (fun nd => { nd with children := nd.children ++ [cls] })).attr x).domain) =
        (G.attr x).domain :=
      double_upd_field_same G cls t.2.2 _ _ (fun nd => nd.domain)
        (fun nd => rfl) (fun nd => rfl)
    have hro : ∀ x, (((updAttr (updAttr G cls
        (fun nd => { nd with parents := nd.parents ++ [t.2.2] })) t.2.2
        (fun nd => { nd with children := nd.children ++ [cls] })).attr x).rangeOf) =
        (G.attr x).rangeOf :=
      double_upd_field_same G cls t.2.2 _ _ (fun nd => nd.rangeOf)
        (fun nd => rfl) (fun nd => rfl)
    have hrg : ∀ x, (((updAttr (updAttr G cls
        (fun nd => { nd with parents := nd.parents ++ [t.2.2] })) t.2.2
        (fun nd => { nd with children := nd.children ++ [cls] })).attr x).range) =
        (G.attr x).range :=
      double_upd_field_same G cls t.2.2 _ _ (fun nd => nd.range)
        (fun nd => rfl) (fun nd => rfl)
    refine ⟨?_, ?_, ?_, ?_, ?_, ?_, ?_, ?_⟩ <;>
      simp only [addEdges_attr, addEdges_nodeIds, updAttr_nodeIds]
    · intro a b
      rw [hp a, hc b]
      exact mirror_pair_append (fun x => (G.attr x).parents)
        (fun x => (G.attr x).children) cls t.2.2 hG.pc a b
    · intro a b
      rw [he a, he b]
      exact hG.eqs a b
    · intro c p
      rw [hdo c, hdm p]
      exact hG.dom c p
    · intro c p
      rw [hro c, hrg p]
      exact hG.rng c p
    · intro a b
      rw [hp a]
      exact closed_pair_append (fun x => (G.attr x).parents) G.nodeIds cls t.2.2
        hcls hpar hG.pN a b
    · intro a b
      rw [he a]
      exact hG.eN a b
    · intro c p
      rw [hdm p]
      exact hG.dN c p
    · intro c p
      rw [hrg p]
      exact hG.rN c p
  · exact hG

lemma add_equivalent_edge_inv (cls : String) (G : OGraph) (t : Triple)
    (hG : MirrorClosed G) (hcls : cls ∈ G.nodeIds) :
    MirrorClosed (add_equivalent_edge cls G t) := by
  simp only [add_equivalent_edge]
  split
  · rename_i heqc
    have heqm : t.2.2 ∈ G.nodeIds := by simpa using heqc
    have he : ∀ x, (((updAttr (updAttr G cls
        (fun nd => { nd with equivalentClasses := nd.equivalentClasses ++ [t.2.2] })) t.2.2
        (fun nd => { nd with equivalentClasses := nd.equivalentClasses ++ [cls] })).attr x).equivalentClasses) =
        (G.attr x).equivalentClasses ++ (if x = cls then [t.2.2] else []) ++
          (if x = t.2.2 then [cls] else []) :=
      double_upd_field G cls t.2.2 _ _ (fun nd => nd.equivalentClasses) [t.2.2] [cls]
        (fun nd => rfl) (fun nd => rfl)
    have hp : ∀ x, (((updAttr (updAttr G cls
        (fun nd => { nd with equivalentClasses := nd.equivalentClasses ++ [t.2.2] })) t.2.2
        (fun nd => { nd with equivalentClasses := nd.equivalentClasses ++ [cls] })).attr x).parents) =
        (G.attr x).parents :=
      double_upd_field_same G cls t.2.2 _ _ (fun nd => nd.parents)
        (fun nd => rfl) (fun nd => rfl)
    have hc : ∀ x, (((updAttr (updAttr G cls
        (fun nd => { nd with equivalentClasses := nd.equivalentClasses ++ [t.2.2] })) t.2.2
        (fun nd => { nd with equivalentClasses := nd.equivalentClasses ++ [cls] })).attr x).children) =
        (G.attr x).children :=
      double_upd_field_same G cls t.2.2 _ _ (fun nd => nd.children)
        (fun nd => rfl) (fun nd => rfl)
    have hdo : ∀ x, (((updAttr (updAttr G cls
        (fun nd => { nd with equivalentClasses := nd.equivalentClasses ++ [t.2.2] })) t.2.2
        (fun nd => { nd with equivalentClasses := nd.equivalentClasses ++ [cls] })).attr x).domainOf) =
        (G.attr x).domainOf :=
      double_upd_field_same G cls t.2.2 _ _ (fun nd => nd.domainOf)
        (fun nd => rfl) (fun nd => rfl)
    have hdm : ∀ x, (((updAttr (updAttr G cls
        (fun nd => { nd with equivalentClasses := nd.equivalentClasses ++ [t.2.2] })) t.2.2
        (fun nd => { nd with equivalentClasses := nd.equivalentClasses ++ [cls] })).attr x).domain) =
        (G.attr x).domain :=
      double_upd_field_same G cls t.2.2 _ _ (fun nd => nd.domain)
        (fun nd => rfl) (fun nd => rfl)
    have hro : ∀ x, (((updAttr (updAttr G cls
        (fun nd => { nd with equivalentClasses := nd.equivalentClasses ++ [t.2.2] })) t.2.2
        (fun nd => { nd with equivalentClasses := nd.equivalentClasses ++ [cls] })).attr x).rangeOf) =
        (G.attr x).rangeOf :=
      double_upd_field_same G cls t.2.2 _ _ (fun nd => nd.rangeOf)
        (fun nd => rfl) (fun nd => rfl)
    have hrg : ∀ x, (((updAttr (updAttr G cls
        (fun nd => { nd with equivalentClasses := nd.equivalentClasses ++ [t.2.2] })) t.2.2
        (fun nd => { nd with equivalentClasses := nd.equivalentClasses ++ [cls] })).attr x).range) =
        (G.attr x).range :=
      double_upd_field_same G cls t.2.2 _ _ (fun nd => nd.range)
        (fun nd => rfl) (fun nd => rfl)
    refine ⟨?_, ?_, ?_, ?_, ?_, ?_, ?_, ?_⟩ <;>
      simp only [addEdges_attr, addEdges_nodeIds, updAttr_nodeIds]
    · intro a b
      rw [hp a, hc b]
      exact hG.pc a b
    · intro a b
      rw [he a, he b]
      exact symm_append (fun x => (G.attr x).equivalentClasses) cls t.2.2 hG.eqs a b
    · intro c p
      rw [hdo c, hdm p]
      exact hG.dom c p
    · intro c p
      rw [hro c, hrg p]
      exact hG.rng c p
    · intro a b
      rw [hp a]
      exact hG.pN a b
    · intro a b
      rw [he a]
      exact closed_symm_append (fun x => (G.attr x).equivalentClasses) G.nodeIds cls t.2.2
        hcls heqm hG.eN a b
    · intro c p
      rw [hdm p]
      exact hG.dN c p
    · intro c p
      rw [hrg p]
      exact hG.rN c p
  · exact hG

lemma add_domain_edge_inv (prop : String) (G : OGraph) (t : Triple)
    (hG : MirrorClosed G) (hprop : prop ∈ G.nodeIds) :
    MirrorClosed (add_domain_edge prop G t) := by
  simp only [add_domain_edge]
  split
  · rename_i hdomc
    have hdomm : t.2.2 ∈ G.nodeIds := by simpa using hdomc
    have hdm : ∀ x, (((updAttr (updAttr G prop
        (fun nd => { nd with domain := nd.domain ++ [t.2.2] })) t.2.2
        (fun nd => { nd with domainOf := nd.domainOf ++ [prop] })).attr x).domain) =
        (G.attr x).domain ++ (if x = prop then [t.2.2] else []) := by
      intro x
      have h := double_upd_field G prop t.2.2
        (fun nd => { nd with domain := nd.domain ++ [t.2.2] })
        (fun nd => { nd with domainOf := nd.domainOf ++ [prop] })
        (fun nd => nd.domain) [t.2.2] []
        (fun nd => rfl) (fun nd => by simp) x
      simpa using h
    have hdo : ∀ x, (((updAttr (updAttr G prop
        (fun nd => { nd with domain := nd.domain ++ [t.2.2] })) t.2.2
        (fun nd => { nd with domainOf := nd.domainOf ++ [prop] })).attr x).domainOf) =
        (G.attr x).domainOf ++ (if x = t.2.2 then [prop] else []) := by
      intro x
      have h := double_upd_field G prop t.2.2
        (fun nd => { nd with domain := nd.domain ++ [t.2.2] })
        (fun nd => { nd with domainOf := nd.domainOf ++ [prop] })
        (fun nd => nd.domainOf) [] [prop]
        (fun nd => by simp) (fun nd => rfl) x
      simpa using h
    have hp : ∀ x, (((updAttr (updAttr G prop
        (fun nd => { nd with domain := nd.domain ++ [t.2.2] })) t.2.2
        (fun nd => { nd with domainOf := nd.domainOf ++ [prop] })).attr x).parents) =
        (G.attr x).parents :=
      double_upd_field_same G prop t.2.2 _ _ (fun nd => nd.parents)
        (fun nd => rfl) (fun nd => rfl)
    have hc : ∀ x, (((updAttr (updAttr G prop
        (fun nd => { nd with domain := nd.domain ++ [t.2.2] })) t.2.2
        (fun nd => { nd with domainOf := nd.domainOf ++ [prop] })).attr x).children) =
        (G.attr x).children :=
      double_upd_field_same G prop t.2.2 _ _ (fun nd => nd.children)
        (fun nd => rfl) (fun nd => rfl)
    have he : ∀ x, (((updAttr (updAttr G prop
        (fun nd => { nd with domain := nd.domain ++ [t.2.2] })) t.2.2
        (fun nd => { nd with domainOf := nd.domainOf ++ [prop] })).attr x).equivalentClasses) =
        (G.attr x).equivalentClasses :=
      double_upd_field_same G prop t.2.2 _ _ (fun nd => nd.equivalentClasses)
        (fun nd => rfl) (fun nd => rfl)
    have hro : ∀ x, (((updAttr (updAttr G prop
        (fun nd => { nd with domain := nd.domain ++ [t.2.2] })) t.2.2
        (fun nd => { nd with domainOf := nd.domainOf ++ [prop] })).attr x).rangeOf) =
        (G.attr x).rangeOf :=
      double_upd_field_same G prop t.2.2 _ _ (fun nd => nd.rangeOf)
        (fun nd => rfl) (fun nd => rfl)
    have hrg : ∀ x, (((updAttr (updAttr G prop
        (fun nd => { nd with domain := nd.domain ++ [t.2.2] })) t.2.2
        (fun nd => { nd with domainOf := nd.domainOf ++ [prop] })).attr x).range) =
        (G.attr x).range :=
      double_upd_field_same G prop t.2.2 _ _ (fun nd => nd.range)
        (fun nd => rfl) (fun nd => rfl)
    refine ⟨?_, ?_, ?_, ?_, ?_, ?_, ?_, ?_⟩ <;>
      simp only [addEdges_attr, addEdges_nodeIds, updAttr_nodeIds]
    · intro a b
      rw [hp a, hc b]
      exact hG.pc a b
    · intro a b
      rw [he a, he b]
      exact hG.eqs a b
    · intro c p
      rw [hdo c, hdm p]
      exact mirror_pair_append (fun x => (G.attr x).domainOf)
        (fun x => (G.attr x).domain) t.2.2 prop hG.dom c p
    · intro c p
      rw [hro c, hrg p]
      exact hG.rng c p
    · intro a b
      rw [hp a]
      exact hG.pN a b
    · intro a b
      rw [he a]
      exact hG.eN a b
    · intro c p
      rw [hdm p]
      intro hx
      have h := closed_pair_append (fun x => (G.attr x).domain) G.nodeIds prop t.2.2
        hprop hdomm (fun a b hb => ⟨(hG.dN b a hb).2, (hG.dN b a hb).1⟩) p c hx
      exact ⟨h.2, h.1⟩
    · intro c p
      rw [hrg p]
      exact hG.rN c p
  · exact hG

lemma add_range_edge_inv (prop : String) (G : OGraph) (t : Triple)
    (hG : MirrorClosed G) (hprop : prop ∈ G.nodeIds) :
    MirrorClosed (add_range_edge prop G t) := by
  simp only [add_range_edge]
  split
  · rename_i hrngc
    have hrngm : t.2.2 ∈ G.nodeIds := by simpa using hrngc
    have hrg : ∀ x, (((updAttr (updAttr G prop
        (fun nd => { nd with range := nd.range ++ [t.2.2] })) t.2.2
        (fun nd => { nd with rangeOf := nd.rangeOf ++ [prop] })).attr x).range) =
        (G.attr x).range ++ (if x = prop then [t.2.2] else []) := by
      intro x
      have h := double_upd_field G prop t.2.2
        (fun nd => { nd with range := nd.range ++ [t.2.2] })
        (fun nd => { nd with rangeOf := nd.rangeOf ++ [prop] })
        (fun nd => nd.range) [t.2.2] []
        (fun nd => rfl) (fun nd => by simp) x
      simpa using h
    have hro : ∀ x, (((updAttr (updAttr G prop
        (fun nd => { nd with range := nd.range ++ [t.2.2] })) t.2.2
        (fun nd => { nd with rangeOf := nd.rangeOf ++ [prop] })).attr x).rangeOf) =
        (G.attr x).rangeOf ++ (if x = t.2.2 then [prop] else []) := by
      intro x
      have h := double_upd_field G prop t.2.2
        (fun nd => { nd with range := nd.range ++ [t.2.2] })
        (fun nd => { nd with rangeOf := nd.rangeOf ++ [prop] })
        (fun nd => nd.rangeOf) [] [prop]
        (fun nd => by simp) (fun nd => rfl) x
      simpa using h
    have hp : ∀ x, (((updAttr (updAttr G prop
        (fun nd => { nd with range := nd.range ++ [t.2.2] })) t.2.2
        (fun nd => { nd with rangeOf := nd.rangeOf ++ [prop] })).attr x).parents) =
        (G.attr x).parents :=
      double_upd_field_same G prop t.2.2 _ _ (fun nd => nd.parents)
        (fun nd => rfl) (fun nd => rfl)
    have hc : ∀ x, (((updAttr (updAttr G prop
        (fun nd => { nd with range := nd.range ++ [t.2.2] })) t.2.2
        (fun nd => { nd with rangeOf := nd.rangeOf ++ [prop] })).attr x).children) =
        (G.attr x).children :=
      double_upd_field_same G prop t.2.2 _ _ (fun nd => nd.children)
        (fun nd => rfl) (fun nd => rfl)
    have he : ∀ x, (((updAttr (updAttr G prop
        (fun nd => { nd with range := nd.range ++ [t.2.2] })) t.2.2
        (fun nd => { nd with rangeOf := nd.rangeOf ++ [prop] })).attr x).equivalentClasses) =
        (G.attr x).equivalentClasses :=
      double_upd_field_same G prop t.2.2 _ _ (fun nd => nd.equivalentClasses)
        (fun nd => rfl) (fun nd => rfl)
    have hdo : ∀ x, (((updAttr (updAttr G prop
        (fun nd => { nd with range := nd.range ++ [t.2.2] })) t.2.2
        (fun nd => { nd with rangeOf := nd.rangeOf ++ [prop] })).attr x).domainOf) =
        (G.attr x).domainOf :=
      double_upd_field_same G prop t.2.2 _ _ (fun nd => nd.domainOf)
        (fun nd => rfl) (fun nd => rfl)
    have hdm : ∀ x, (((updAttr (updAttr G prop
        (fun nd => { nd with range := nd.range ++ [t.2.2] })) t.2.2
        (fun nd => { nd with rangeOf := nd.rangeOf ++ [prop] })).attr x).domain) =
        (G.attr x).domain :=
      double_upd_field_same G prop t.2.2 _ _ (fun nd => nd.domain)
        (fun nd => rfl) (fun nd => rfl)
    refine ⟨?_, ?_, ?_, ?_, ?_, ?_, ?_, ?_⟩ <;>
      simp only [addEdges_attr, addEdges_nodeIds, updAttr_nodeIds]
    · intro a b
      rw [hp a, hc b]
      exact hG.pc a b
    · intro a b
      rw [he a, he b]
      exact hG.eqs a b
    · intro c p
      rw [hdo c, hdm p]
      exact hG.dom c p
    · intro c p
      rw [hro c, hrg p]
      exact mirror_pair_append (fun x => (G.attr x).rangeOf)
        (fun x => (G.attr x).range) t.2.2 prop hG.rng c p
    · intro a b
      rw [hp a]
      exact hG.pN a b
    · intro a b
      rw [he a]
      exact hG.eN a b
    · intro c p
      rw [hdm p]
      exact hG.dN c p
    · intro c p
      rw [hrg p]
      intro hx
      have h := closed_pair_append (fun x => (G.attr x).range) G.nodeIds prop t.2.2
        hprop hrngm (fun a b hb => ⟨(hG.rN b a hb).2, (hG.rN b a hb).1⟩) p c hx
      exact ⟨h.2, h.1⟩
  · exact hG

lemma add_subclass_edge_nodeIds (cls : String) (G : OGraph) (t : Triple) :
    (add_subclass_edge cls G t).nodeIds = G.nodeIds := by
  simp only [add_subclass_edge]; split <;> rfl

lemma add_equivalent_edge_nodeIds (cls : String) (G : OGraph) (t : Triple) :
    (add_equivalent_edge cls G t).nodeIds = G.nodeIds := by
  simp only [add_equivalent_edge]; split <;> rfl

lemma add_domain_edge_nodeIds (prop : String) (G : OGraph) (t : Triple) :
    (add_domain_edge prop G t).nodeIds = G.nodeIds := by
  simp only [add_domain_edge]; split <;> rfl

lemma add_range_edge_nodeIds (prop : String) (G : OGraph) (t : Triple) :
    (add_range_edge prop G t).nodeIds = G.nodeIds := by
  simp only [add_range_edge]; split <;> rfl

lemma foldl_edge_inv (step : OGraph → Triple → OGraph) (c : String)
    (hstep : ∀ G t, MirrorClosed G → c ∈ G.nodeIds → MirrorClosed (step G t))
    (hni : ∀ G t, (step G t).nodeIds = G.nodeIds) (ts : List Triple) :
    ∀ G, MirrorClosed G → c ∈ G.nodeIds →
      MirrorClosed (ts.foldl step G) ∧ (ts.foldl step G).nodeIds = G.nodeIds := by
  induction ts with
  | nil => intro G h _; exact ⟨h, rfl⟩
  | cons t ts ih =>
      intro G h hc
      rw [List.foldl_cons]
      have h1 := hstep G t h hc
      have h2 := hni G t
      have h3 := ih (step G t) h1 (by rw [h2]; exact hc)
      exact ⟨h3.1, h3.2.trans h2⟩

lemma foldl_classes_inv (stepc : String → OGraph → Triple → OGraph)
    (tsf : String → List Triple)
    (hstep : ∀ cls G t, MirrorClosed G → cls ∈ G.nodeIds → MirrorClosed (stepc cls G t))
    (hni : ∀ cls G t, (stepc cls G t).nodeIds = G.nodeIds) (classes : List String) :
    ∀ G, MirrorClosed G → (∀ c ∈ classes, c ∈ G.nodeIds) →
      MirrorClosed (classes.foldl (fun G cls => (tsf cls).foldl (stepc cls) G) G) ∧
      (classes.foldl (fun G cls => (tsf cls).foldl (stepc cls) G) G).nodeIds =
        G.nodeIds := by
  induction classes with
  | nil => intro G h _; exact ⟨h, rfl⟩
  | cons c cs ih =>
      intro G h hall
      rw [List.foldl_cons]
      have hin := foldl_edge_inv (stepc c) c (hstep c) (hni c) (tsf c) G h
        (hall c (List.mem_cons_self c cs))
      have h3 := ih _ hin.1 (fun x hx => by
        rw [hin.2]; exact hall x (List.mem_cons_of_mem c hx))
      exact ⟨h3.1, h3.2.trans hin.2⟩

lemma add_class_relationships_inv (g : List Triple) (classes : List String)
    (G : OGraph) (hG : MirrorClosed G) (hall : ∀ c ∈ classes, c ∈ G.nodeIds) :
    MirrorClosed (add_class_relationships g G classes) ∧
    (add_class_relationships g G classes).nodeIds = G.nodeIds := by
  simp only [add_class_relationships]
  have h1 := foldl_classes_inv add_subclass_edge
    (fun cls => g.filter (fun t => t.1 = cls ∧ t.2.1 = rdfs_subClassOf))
    add_subclass_edge_inv add_subclass_edge_nodeIds classes G hG hall
  have h2 := foldl_classes_inv add_equivalent_edge
    (fun cls => g.filter (fun t => t.1 = cls ∧ t.2.1 = owl_equivalentClass))
    add_equivalent_edge_inv add_equivalent_edge_nodeIds classes _ h1.1
    (fun x hx => by rw [h1.2]; exact hall x hx)
  exact ⟨h2.1, h2.2.trans h1.2⟩

lemma add_property_relationships_inv (g : List Triple) (properties : List String) :
    ∀ G, MirrorClosed G → (∀ p ∈ properties, p ∈ G.nodeIds) →
      MirrorClosed (add_property_relationships g G properties) ∧
      (add_property_relationships g G properties).nodeIds = G.nodeIds := by
  simp only [add_property_relationships]
  induction properties with
  | nil => intro G h _; exact ⟨h, rfl⟩
  | cons p ps ih =>
      intro G h hall
      rw [List.foldl_cons]
      have hp := hall p (List.mem_cons_self p ps)
      have h1 := foldl_edge_inv (add_domain_edge p) p (add_domain_edge_inv p)
        (add_domain_edge_nodeIds p)
        (g.filter (fun t => t.1 = p ∧ t.2.1 = rdfs_domain)) G h hp
      have h2 := foldl_edge_inv (add_range_edge p) p (add_range_edge_inv p)
        (add_range_edge_nodeIds p)
        (g.filter (fun t => t.1 = p ∧ t.2.1 = rdfs_range)) _ h1.1
        (by rw [h1.2]; exact hp)
      have h3 := ih _ h2.1 (fun x hx => by
        rw [h2.2, h1.2]; exact hall x (List.mem_cons_of_mem p hx))
      refine ⟨h3.1, h3.2.trans (h2.2.trans h1.2)⟩

/-- All relationship attributes are empty (the state right after the
node-creation phase). -/
def NoRel (G : OGraph) : Prop :=
  ∀ x, (G.attr x).parents = [] ∧ (G.attr x).children = [] ∧
    (G.attr x).equivalentClasses = [] ∧ (G.attr x).domainOf = [] ∧
    (G.attr x).rangeOf = [] ∧ (G.attr x).domain = [] ∧ (G.attr x).range = []

lemma norel_mirrorClosed (G : OGraph) (h : NoRel G) : MirrorClosed G := by
  refine ⟨?_, ?_, ?_, ?_, ?_, ?_, ?_, ?_⟩ <;> intro a b <;>
    obtain ⟨p1, c1, e1, do1, ro1, dm1, rg1⟩ := h a <;>
    obtain ⟨p2, c2, e2, do2, ro2, dm2, rg2⟩ := h b <;>
    simp [p1, c1, e1, do1, ro1, dm1, rg1, p2, c2, e2, do2, ro2, dm2, rg2]

lemma addGraphNode_norel (G : OGraph) (id : String) (nd : NodeData)
    (hnd : nd.parents = [] ∧ nd.children = [] ∧ nd.equivalentClasses = [] ∧
      nd.domainOf = [] ∧ nd.rangeOf = [] ∧ nd.domain = [] ∧ nd.range = [])
    (h : NoRel G) : NoRel (addGraphNode G id nd) := by
  intro x
  simp only [addGraphNode]
  by_cases hx : x = id
  · simpa [hx] using hnd
  · simpa [hx] using h x

lemma norel_updAttr (G : OGraph) (id : String) (f : NodeData → NodeData)
    (hf : ∀ nd, (f nd).parents = nd.parents ∧ (f nd).children = nd.children ∧
      (f nd).equivalentClasses = nd.equivalentClasses ∧ (f nd).domainOf = nd.domainOf ∧
      (f nd).rangeOf = nd.rangeOf ∧ (f nd).domain = nd.domain ∧ (f nd).range = nd.range)
    (h : NoRel G) : NoRel (updAttr G id f) := by
  intro x
  simp only [updAttr]
  by_cases hx : x = id
  · obtain ⟨a1, a2, a3, a4, a5, a6, a7⟩ := hf (G.attr x)
    obtain ⟨b1, b2, b3, b4, b5, b6, b7⟩ := h x
    simp [hx, a1, a2, a3, a4, a5, a6, a7, b1, b2, b3, b4, b5, b6, b7]
    have hb := h id
    exact ⟨by rw [(hf (G.attr id)).1]; exact hb.1,
      by rw [(hf (G.attr id)).2.1]; exact hb.2.1,
      by rw [(hf (G.attr id)).2.2.1]; exact hb.2.2.1,
      by rw [(hf (G.attr id)).2.2.2.1]; exact hb.2.2.2.1,
      by rw [(hf (G.attr id)).2.2.2.2.1]; exact hb.2.2.2.2.1,
      by rw [(hf (G.attr id)).2.2.2.2.2.1]; exact hb.2.2.2.2.2.1,
      by rw [(hf (G.attr id)).2.2.2.2.2.2]; exact hb.2.2.2.2.2.2⟩
  · simpa [hx] using h x

lemma add_class_node_norel (g : List Triple) (G : OGraph) (cls : String)
    (h : NoRel G) : NoRel (add_class_node g G cls) := by
  simp only [add_class_node]
  split
  · split
    · exact addGraphNode_norel G cls _ ⟨rfl, rfl, rfl, rfl, rfl, rfl, rfl⟩ h
    · exact norel_updAttr _ cls _ (fun nd => ⟨rfl, rfl, rfl, rfl, rfl, rfl, rfl⟩)
        (addGraphNode_norel G cls _ ⟨rfl, rfl, rfl, rfl, rfl, rfl, rfl⟩ h)
  · exact addGraphNode_norel G cls _ ⟨rfl, rfl, rfl, rfl, rfl, rfl, rfl⟩ h

lemma add_property_node_norel (g : List Triple) (G : OGraph) (prop : String)
    (h : NoRel G) : NoRel (add_property_node g G prop) :=
  addGraphNode_norel G prop _ ⟨rfl, rfl, rfl, rfl, rfl, rfl, rfl⟩ h

lemma foldl_node_norel (step : OGraph → String → OGraph)
    (hstep : ∀ G c, NoRel G → NoRel (step G c)) :
    ∀ (l : List String) (G), NoRel G → NoRel (l.foldl step G) := by
  intro l
  induction l with
  | nil => intro G h; exact h
  | cons c cs ih =>
      intro G h
      rw [List.foldl_cons]
      exact ih _ (hstep G c h)

lemma addGraphNode_mem (G : OGraph) (id y : String) (nd : NodeData)
    (h : y ∈ G.nodeIds) : y ∈ (addGraphNode G id nd).nodeIds := by
  simp only [addGraphNode]
  split
  · exact h
  · exact List.mem_append_left _ h

lemma addGraphNode_mem_self (G : OGraph) (id : String) (nd : NodeData) :
    id ∈ (addGraphNode G id nd).nodeIds := by
  simp only [addGraphNode]
  split
  · rename_i hc
    simpa using hc
  · simp

lemma add_class_node_mem (g : List Triple) (G : OGraph) (cls y : String)
    (h : y ∈ G.nodeIds) : y ∈ (add_class_node g G cls).nodeIds := by
  simp only [add_class_node]
  split
  · split
    · exact addGraphNode_mem G cls y _ h
    · rw [updAttr_nodeIds]
      exact addGraphNode_mem G cls y _ h
  · exact addGraphNode_mem G cls y _ h

lemma add_class_node_mem_self (g : List Triple) (G : OGraph) (cls : String) :
    cls ∈ (add_class_node g G cls).nodeIds := by
  simp only [add_class_node]
  split
  · split
    · exact addGraphNode_mem_self G cls _
    · rw [updAttr_nodeIds]
      exact addGraphNode_mem_self G cls _
  · exact addGraphNode_mem_self G cls _

lemma add_property_node_mem (g : List Triple) (G : OGraph) (prop y : String)
    (h : y ∈ G.nodeIds) : y ∈ (add_property_node g G prop).nodeIds :=
  addGraphNode_mem G prop y _ h

lemma add_property_node_mem_self (g : List Triple) (G : OGraph) (prop : String) :
    prop ∈ (add_property_node g G prop).nodeIds :=
  addGraphNode_mem_self G prop _

lemma foldl_node_mem (step : OGraph → String → OGraph)
    (hmono : ∀ G c y, y ∈ G.nodeIds → y ∈ (step G c).nodeIds)
    (hself : ∀ G c, c ∈ (step G c).nodeIds) :
    ∀ (l : List String) (G),
      (∀ c ∈ l, c ∈ (l.foldl step G).nodeIds) ∧
      (∀ y ∈ G.nodeIds, y ∈ (l.foldl step G).nodeIds) := by
  intro l
  induction l with
  | nil => intro G; exact ⟨fun c hc => absurd hc (by simp), fun y hy => hy⟩
  | cons c cs ih =>
      intro G
      rw [List.foldl_cons]
      refine ⟨?_, ?_⟩
      · intro x hx
        rcases List.mem_cons.mp hx with rfl | hx'
        · exact (ih (step G x)).2 x (hself G x)
        · exact (ih (step G c)).1 x hx'
      · intro y hy
        exact (ih (step G c)).2 y (hmono G c y hy)

/-- C7: in every graph produced by `build_ontology_graph`, each recorded
relationship is mirrored by its inverse (parents/children,
equivalentClasses on both endpoints, domain/domainOf, range/rangeOf)
and every recorded endpoint is an existing graph node — a relationship
whose target is outside the ontology is silently dropped and never
creates a dangling reference. -/
theorem build_ontology_graph_mirrored (g : List Triple)
    (classes properties : List String) :
    (∀ a b, b ∈ ((build_ontology_graph g classes properties).attr a).parents ↔
      a ∈ ((build_ontology_graph g classes properties).attr b).children) ∧
    (∀ a b, b ∈ ((build_ontology_graph g classes properties).attr a).equivalentClasses ↔
      a ∈ ((build_ontology_graph g classes properties).attr b).equivalentClasses) ∧
    (∀ c p, p ∈ ((build_ontology_graph g classes properties).attr c).domainOf ↔
      c ∈ ((build_ontology_graph g classes properties).attr p).domain) ∧
    (∀ c p, p ∈ ((build_ontology_graph g classes properties).attr c).rangeOf ↔
      c ∈ ((build_ontology_graph g classes properties).attr p).range) ∧
    (∀ a b, b ∈ ((build_ontology_graph g classes properties).attr a).parents →
      a ∈ (build_ontology_graph g classes properties).nodeIds ∧
      b ∈ (build_ontology_graph g classes properties).nodeIds) ∧
    (∀ a b, b ∈ ((build_ontology_graph g classes properties).attr a).children →
      a ∈ (build_ontology_graph g classes properties).nodeIds ∧
      b ∈ (build_ontology_graph g classes properties).nodeIds) ∧
    (∀ a b, b ∈ ((build_ontology_graph g classes properties).attr a).equivalentClasses →
      a ∈ (build_ontology_graph g classes properties).nodeIds ∧
      b ∈ (build_ontology_graph g classes properties).nodeIds) ∧
    (∀ c p, c ∈ ((build_ontology_graph g classes properties).attr p).domain →
      c ∈ (build_ontology_graph g classes properties).nodeIds ∧
      p ∈ (build_ontology_graph g classes properties).nodeIds) ∧
    (∀ c p, p ∈ ((build_ontology_graph g classes properties).attr c).domainOf →
      c ∈ (build_ontology_graph g classes properties).nodeIds ∧
      p ∈ (build_ontology_graph g classes properties).nodeIds) ∧
    (∀ c p, c ∈ ((build_ontology_graph g classes properties).attr p).range →
      c ∈ (build_ontology_graph g classes properties).nodeIds ∧
      p ∈ (build_ontology_graph g classes properties).nodeIds) ∧
    (∀ c p, p ∈ ((build_ontology_graph g classes properties).attr c).rangeOf →
      c ∈ (build_ontology_graph g classes properties).nodeIds ∧
      p ∈ (build_ontology_graph g classes properties).nodeIds) := by
  have h0 : NoRel (({} : OGraph)) := fun x => ⟨rfl, rfl, rfl, rfl, rfl, rfl, rfl⟩
  have h1 : NoRel (classes.foldl (add_class_node g) {}) :=
    foldl_node_norel (add_class_node g) (fun G c => add_class_node_norel g G c) classes {} h0
  have h2 : NoRel (properties.foldl (add_property_node g)
      (classes.foldl (add_class_node g) {})) :=
    foldl_node_norel (add_property_node g) (fun G c => add_property_node_norel g G c)
      properties _ h1
  have hm : MirrorClosed (properties.foldl (add_property_node g)
      (classes.foldl (add_class_node g) {})) := norel_mirrorClosed _ h2
  have hclsmem : ∀ c ∈ classes, c ∈ (properties.foldl (add_property_node g)
      (classes.foldl (add_class_node g) {})).nodeIds := by
    intro c hc
    exact (foldl_node_mem (add_property_node g) (add_property_node_mem g)
        (add_property_node_mem_self g) properties _).2 c
      ((foldl_node_mem (add_class_node g) (add_class_node_mem g)
        (add_class_node_mem_self g) classes {}).1 c hc)
  have hpropmem : ∀ p ∈ properties, p ∈ (properties.foldl (add_property_node g)
      (classes.foldl (add_class_node g) {})).nodeIds := by
    intro p hp
    exact (foldl_node_mem (add_property_node g) (add_property_node_mem g)
      (add_property_node_mem_self g) properties _).1 p hp
  have hcr := add_class_relationships_inv g classes _ hm hclsmem
  have hpr := add_property_relationships_inv g properties _ hcr.1
    (fun p hp => by rw [hcr.2]; exact hpropmem p hp)
  have hB : MirrorClosed (build_ontology_graph g classes properties) := by
    simpa [build_ontology_graph] using hpr.1
  refine ⟨hB.pc, ?_, hB.dom, hB.rng, hB.pN, ?_, hB.eN, hB.dN, ?_, hB.rN, ?_⟩
  · intro a b
    exact ⟨hB.eqs a b, hB.eqs b a⟩
  · intro a b hx
    have h := hB.pN b a ((hB.pc b a).mpr hx)
    exact ⟨h.2, h.1⟩
  · intro c p hx
    exact hB.dN c p ((hB.dom c p).mp hx)
  · intro c p hx
    exact hB.rN c p ((hB.rng c p).mp hx)

/-! ## Ontology depth (`src/model/ontology.py`, lines 145-162) -/

/-- Python dict assignment `depth_map[k] = v`: update in place, or append
a new entry (dicts preserve insertion order). -/
def dmInsert (dm : List (String × ℕ)) (k : String) (v : ℕ) : List (String × ℕ) :=
  if (dm.lookup k).isSome then dm.map (fun p => if p.1 = k then (k, v) else p)
  else dm ++ [(k, v)]

/-- One iteration of the `for child in ...` loop of `ontology.py`
lines 157-160: `if child not in depth_map or depth_map[child] > cur_depth + 1`,
set `depth_map[child] = cur_depth + 1` and append the child to the
queue. -/
def relaxOne (d : ℕ) (st : List (String × ℕ) × List String) (child : String) :
    List (String × ℕ) × List String :=
  match st.1.lookup child with
  | none => (dmInsert st.1 child (d + 1), st.2 ++ [child])
  | some dc =>
      if dc > d + 1 then (dmInsert st.1 child (d + 1), st.2 ++ [child]) else st

/-- The whole child loop of `ontology.py` lines 157-160. -/
def relaxChildren (children : List String) (d : ℕ)
    (st : List (String × ℕ) × List String) : List (String × ℕ) × List String :=
  children.foldl (relaxOne d) st

/-- The `while queue` loop of `ontology.py` lines 154-160 (FIFO:
`queue.pop(0)` takes the head, updated children are appended).  Runs on
fuel; `none` models only fuel exhaustion or a dequeued node missing from
the depth map (which never happens: nodes are recorded before being
enqueued). -/
def bfsLoop (G : OGraph) :
    ℕ → List (String × ℕ) → List String → Option (List (String × ℕ))
  | _, dm, [] => some dm
  | 0, _, _ :: _ => none
  | fuel + 1, dm, cur :: rest =>
      match dm.lookup cur with
      | none => none
      | some d =>
          let st := relaxChildren (G.attr cur).children d (dm, rest)
          bfsLoop G fuel st.1 st.2

/-- Fuel that always suffices for one root's BFS (proved below): the
measure `phi + queue length` is at most `n * (n + 2) + 1` and strictly
decreases each iteration. -/
def depthFuel (G : OGraph) : ℕ := G.nodeIds.length * (G.nodeIds.length + 2) + 2

/-- The `for root in roots` loop of `ontology.py` lines 151-160. -/
def depthRootsLoop (G : OGraph) :
    List String → List (String × ℕ) → Option (List (String × ℕ))
  | [], dm => some dm
  | r :: rs, dm =>
      match bfsLoop G (depthFuel G) (dmInsert dm r 0) [r] with
      | none => none
      | some dm' => depthRootsLoop G rs dm'

/-- `calculate_ontology_depth` of `ontology.py` lines 145-162: roots are
the label-map keys that are Class nodes with no parents; BFS from each
root in turn, relaxing depths downwards. -/
def calculate_ontology_depth (G : OGraph) (label_map_keys : List String) :
    Option (List (String × ℕ) × List String) :=
  let roots := label_map_keys.filter
    (fun cid => (G.attr cid).ntype == "Class" && (G.attr cid).parents.isEmpty)
  match depthRootsLoop G roots [] with
  | none => none
  | some dm => some (dm, roots)

/-- `ReachN G roots n c`: the class `c` is reachable from some root by a
hierarchy path (children edges) of exactly `n` hops. -/
inductive ReachN (G : OGraph) (roots : List String) : ℕ → String → Prop
  | root (r : String) (hr : r ∈ roots) : ReachN G roots 0 r
  | child (n : ℕ) (u c : String) (hu : ReachN G roots n u)
      (hc : c ∈ (G.attr u).children) : ReachN G roots (n + 1) c

/-! ### Dictionary lemmas -/

lemma dm_update_lookup_ne (dm : List (String × ℕ)) (k k' : String) (v : ℕ)
    (h : k' ≠ k) :
    (dm.map (fun p => if p.1 = k then (k, v) else p)).lookup k' = dm.lookup k' := by
  induction dm with
  | nil => rfl
  | cons p ps ih =>
      obtain ⟨pk, pv⟩ := p
      rw [List.map_cons]
      by_cases hp : pk = k
      · subst hp
        rw [if_pos (show ((pk, pv) : String × ℕ).1 = pk from rfl)]
        rw [lookup_cons_pair, lookup_cons_pair]
        have h2 : (k' == pk) = false := beq_eq_false_iff_ne.mpr h
        rw [h2]
        simp only [Bool.false_eq_true, if_false]
        exact ih
      · have hfst : ((pk, pv) : String × ℕ).1 = k ↔ pk = k := Iff.rfl
        simp only [hfst, if_neg hp]
        rw [lookup_cons_pair, lookup_cons_pair]
        cases hk' : (k' == pk) with
        | true => rfl
        | false =>
            simp only [Bool.false_eq_true, if_false]
            exact ih

lemma dm_update_lookup_self (dm : List (String × ℕ)) (k : String) (v : ℕ)
    (hs : (dm.lookup k).isSome) :
    (dm.map (fun p => if p.1 = k then (k, v) else p)).lookup k = some v := by
  induction dm with
  | nil => simp [List.lookup] at hs
  | cons p ps ih =>
      obtain ⟨pk, pv⟩ := p
      rw [List.map_cons]
      by_cases hp : pk = k
      · subst hp
        rw [if_pos (show ((pk, pv) : String × ℕ).1 = pk from rfl)]
        rw [lookup_cons_pair]
        simp
      · have hfst : ((pk, pv) : String × ℕ).1 = k ↔ pk = k := Iff.rfl
        simp only [hfst, if_neg hp]
        rw [lookup_cons_pair]
        have hk : (k == pk) = false := beq_eq_false_iff_ne.mpr (fun e => hp e.symm)
        rw [hk]
        simp only [Bool.false_eq_true, if_false]
        rw [lookup_cons_pair, hk] at hs
        simp only [Bool.false_eq_true, if_false] at hs
        exact ih hs

lemma lookup_append_pair {β : Type} (m₂ : List (String × β)) :
    ∀ (m₁ : List (String × β)) (cid : String),
      ((m₁ ++ m₂).lookup cid) =
        if (m₁.lookup cid).isSome then m₁.lookup cid else m₂.lookup cid := by
  intro m₁
  induction m₁ with
  | nil => intro cid; simp
  | cons p ps ih =>
      intro cid
      obtain ⟨pk, pv⟩ := p
      rw [List.cons_append, lookup_cons_pair, lookup_cons_pair]
      cases hcd : (cid == pk) with
      | true => simp
      | false => simpa using ih cid

lemma dmInsert_lookup_self (dm : List (String × ℕ)) (k : String) (v : ℕ) :
    (dmInsert dm k v).lookup k = some v := by
  unfold dmInsert
  split
  · rename_i hs
    exact dm_update_lookup_self dm k v hs
  · rename_i hs
    rw [lookup_append_pair]
    rw [Option.not_isSome_iff_eq_none] at hs
    rw [hs]
    simp [List.lookup]

lemma dmInsert_lookup_ne (dm : List (String × ℕ)) (k k' : String) (v : ℕ)
    (h : k' ≠ k) : (dmInsert dm k v).lookup k' = dm.lookup k' := by
  unfold dmInsert
  split
  · exact dm_update_lookup_ne dm k k' v h
  · rw [lookup_append_pair]
    split
    · rfl
    · rename_i hs
      rw [lookup_cons_pair]
      have hne : (k' == k) = false := beq_eq_false_iff_ne.mpr h
      rw [hne]
      simp only [Bool.false_eq_true, if_false, List.lookup]
      rw [Option.not_isSome_iff_eq_none] at hs
      rw [hs]

lemma dmInsert_keys (dm : List (String × ℕ)) (k : String) (v : ℕ) :
    (dmInsert dm k v).map Prod.fst =
      if (dm.lookup k).isSome then dm.map Prod.fst else dm.map Prod.fst ++ [k] := by
  unfold dmInsert
  split
  · rw [List.map_map]
    apply List.map_congr_left
    intro p _
    by_cases hp : p.1 = k
    · simp [hp]
    · simp [hp]
  · simp

lemma lookup_none_iff_keys (dm : List (String × ℕ)) (k : String) :
    dm.lookup k = none ↔ k ∉ dm.map Prod.fst := by
  induction dm with
  | nil => simp [List.lookup]
  | cons p ps ih =>
      obtain ⟨pk, pv⟩ := p
      rw [lookup_cons_pair]
      cases hk : (k == pk) with
      | true =>
          simp only [if_pos rfl]
          have : k = pk := by simpa using hk
          simp [this]
      | false =>
          have : ¬ k = pk := by simpa using hk
          simp [this, ih]

lemma lookup_isSome_mem_keys (dm : List (String × ℕ)) (k : String)
    (h : (dm.lookup k).isSome) : k ∈ dm.map Prod.fst := by
  by_contra hc
  rw [← lookup_none_iff_keys] at hc
  rw [hc] at h
  simp at h

/-! ### Termination measure -/

/-- Rank of one node's depth entry, capped so that every relaxation
strictly decreases it. -/
def rnkD (n : ℕ) : Option ℕ → ℕ
  | none => n + 2
  | some d => min d (n + 1)

/-- Σ over the (distinct) graph nodes of the rank of their depth entry. -/
def phiG (G : OGraph) (dm : List (String × ℕ)) : ℕ :=
  (G.nodeIds.dedup.map (fun x => rnkD G.nodeIds.length (dm.lookup x))).sum

lemma sum_lt_sum_of_mem {α : Type} (l : List α) (f g : α → ℕ)
    (hle : ∀ y ∈ l, f y ≤ g y) (x : α) (hx : x ∈ l) (hlt : f x < g x) :
    (l.map f).sum < (l.map g).sum := by
  induction l with
  | nil => cases hx
  | cons a as ih =>
      simp only [List.map_cons, List.sum_cons]
      rcases List.mem_cons.mp hx with rfl | hx'
      · have hrest : (as.map f).sum ≤ (as.map g).sum :=
          List.sum_le_sum (fun y hy => hle y (List.mem_cons_of_mem x hy))
        omega
      · have hhead : f a ≤ g a := hle a (List.mem_cons_self a as)
        have := ih (fun y hy => hle y (List.mem_cons_of_mem a hy)) hx'
        omega

lemma phi_insert_lt (G : OGraph) (dm : List (String × ℕ)) (k : String) (v : ℕ)
    (hk : k ∈ G.nodeIds)
    (hlt : rnkD G.nodeIds.length (some v) < rnkD G.nodeIds.length (dm.lookup k)) :
    phiG G (dmInsert dm k v) < phiG G dm := by
  apply sum_lt_sum_of_mem _ _ _ _ k (List.mem_dedup.mpr hk)
  · rw [dmInsert_lookup_self]
    exact hlt
  · intro y _
    by_cases hyk : y = k
    · subst hyk
      rw [dmInsert_lookup_self]
      exact le_of_lt hlt
    · rw [dmInsert_lookup_ne dm k y v hyk]

lemma keys_len_le (G : OGraph) (dm : List (String × ℕ))
    (hN : ∀ k ∈ dm.map Prod.fst, k ∈ G.nodeIds)
    (hND : (dm.map Prod.fst).Nodup) :
    (dm.map Prod.fst).length ≤ G.nodeIds.length := by
  calc (dm.map Prod.fst).length = (dm.map Prod.fst).toFinset.card :=
        (List.toFinset_card_of_nodup hND).symm
    _ ≤ G.nodeIds.toFinset.card := by
        apply Finset.card_le_card
        intro x hx
        rw [List.mem_toFinset] at hx ⊢
        exact hN x hx
    _ ≤ G.nodeIds.length := List.toFinset_card_le _

lemma phiG_le (G : OGraph) (dm : List (String × ℕ)) :
    phiG G dm ≤ G.nodeIds.length * (G.nodeIds.length + 2) := by
  have hterm : ∀ x ∈ G.nodeIds.dedup.map
      (fun x => rnkD G.nodeIds.length (dm.lookup x)), x ≤ G.nodeIds.length + 2 := by
    intro x hx
    rw [List.mem_map] at hx
    obtain ⟨y, _, rfl⟩ := hx
    cases dm.lookup y with
    | none => simp [rnkD]
    | some d =>
        simp only [rnkD]
        have := min_le_right d (G.nodeIds.length + 1)
        omega
  have h1 := List.sum_le_card_nsmul _ _ hterm
  rw [smul_eq_mul, List.length_map] at h1
  have h2 : G.nodeIds.dedup.length ≤ G.nodeIds.length :=
    List.Sublist.length_le (List.dedup_sublist _)
  calc phiG G dm ≤ G.nodeIds.dedup.length * (G.nodeIds.length + 2) := h1
    _ ≤ G.nodeIds.length * (G.nodeIds.length + 2) :=
        Nat.mul_le_mul_right _ h2

/-! ### Run invariants -/

/-- Invariant on the depth map alone: keys are distinct existing nodes,
values are below the key count, and every recorded depth is realised by
an actual path from a root. -/
structure DInv (G : OGraph) (roots : List String) (dm : List (String × ℕ)) : Prop where
  keysN : ∀ k ∈ dm.map Prod.fst, k ∈ G.nodeIds
  keysND : (dm.map Prod.fst).Nodup
  vB : ∀ k v, dm.lookup k = some v → v + 1 ≤ (dm.map Prod.fst).length
  real : ∀ k v, dm.lookup k = some v → ReachN G roots v k

/-- Invariant of the BFS loop: the map invariant, every queued node has
a recorded depth, and every recorded edge is either already relaxed or
its source is still queued. -/
structure QInv (G : OGraph) (roots : List String) (dm : List (String × ℕ))
    (q : List String) : Prop where
  dinv : DInv G roots dm
  qRec : ∀ x ∈ q, (dm.lookup x).isSome
  fix : ∀ u du, dm.lookup u = some du → ∀ c ∈ (G.attr u).children,
    u ∈ q ∨ ∃ dc, dm.lookup c = some dc ∧ dc ≤ du + 1

lemma relaxOne_spec (G : OGraph) (roots : List String) (d : ℕ)
    (dm : List (String × ℕ)) (q : List String) (child : String)
    (hinv : DInv G roots dm) (hcN : child ∈ G.nodeIds)
    (hcR : ReachN G roots (d + 1) child)
    (hd : d + 1 ≤ (dm.map Prod.fst).length) :
    DInv G roots (relaxOne d (dm, q) child).1 ∧
    (∀ k v, dm.lookup k = some v →
      ∃ v' ≤ v, (relaxOne d (dm, q) child).1.lookup k = some v') ∧
    (∀ x ∈ q, x ∈ (relaxOne d (dm, q) child).2) ∧
    (∀ k, (relaxOne d (dm, q) child).1.lookup k ≠ dm.lookup k →
      k ∈ (relaxOne d (dm, q) child).2) ∧
    (∃ dc, (relaxOne d (dm, q) child).1.lookup child = some dc ∧ dc ≤ d + 1) ∧
    (∀ x ∈ (relaxOne d (dm, q) child).2,
      x ∈ q ∨ ((relaxOne d (dm, q) child).1.lookup x).isSome) ∧
    phiG G (relaxOne d (dm, q) child).1 + (relaxOne d (dm, q) child).2.length ≤
      phiG G dm + q.length ∧
    (dm.map Prod.fst).length ≤ ((relaxOne d (dm, q) child).1.map Prod.fst).length := by
  have hlen_le : (dm.map Prod.fst).length ≤ G.nodeIds.length :=
    keys_len_le G dm hinv.keysN hinv.keysND
  unfold relaxOne
  cases hl : dm.lookup child with
  | none =>
      simp only
      have hkeys := dmInsert_keys dm child (d + 1)
      rw [hl] at hkeys
      simp only [Option.isSome_none, Bool.false_eq_true, if_false] at hkeys
      have hnotk : child ∉ dm.map Prod.fst := (lookup_none_iff_keys dm child).mp hl
      refine ⟨⟨?_, ?_, ?_, ?_⟩, ?_, ?_, ?_, ?_, ?_, ?_, ?_⟩
      · intro k hk
        rw [hkeys] at hk
        rcases List.mem_append.mp hk with hk' | hk'
        · exact hinv.keysN k hk'
        · simp only [List.mem_singleton] at hk'
          exact hk' ▸ hcN
      · rw [hkeys]
        simp only [List.nodup_append, List.nodup_cons, List.nodup_nil]
        exact ⟨hinv.keysND, by simp, by simpa using fun hc => hnotk hc⟩
      · intro k v hk
        rw [hkeys, List.length_append, List.length_singleton]
        by_cases hkc : k = child
        · subst hkc
          rw [dmInsert_lookup_self] at hk
          injection hk with hk
          omega
        · rw [dmInsert_lookup_ne dm child k (d + 1) hkc] at hk
          have := hinv.vB k v hk
          omega
      · intro k v hk
        by_cases hkc : k = child
        · subst hkc
          rw [dmInsert_lookup_self] at hk
          injection hk with hk
          rw [← hk]
          exact hcR
        · rw [dmInsert_lookup_ne dm child k (d + 1) hkc] at hk
          exact hinv.real k v hk
      · intro k v hk
        have hkc : k ≠ child := fun h => by rw [h, hl] at hk; cases hk
        refine ⟨v, le_refl v, ?_⟩
        rw [dmInsert_lookup_ne dm child k (d + 1) hkc]
        exact hk
      · intro x hx
        exact List.mem_append_left _ hx
      · intro k hk
        by_cases hkc : k = child
        · subst hkc
          simp
        · rw [dmInsert_lookup_ne dm child k (d + 1) hkc] at hk
          exact absurd rfl hk
      · exact ⟨d + 1, dmInsert_lookup_self dm child (d + 1), le_refl _⟩
      · intro x hx
        rcases List.mem_append.mp hx with hx' | hx'
        · exact Or.inl hx'
        · simp only [List.mem_singleton] at hx'
          subst hx'
          rw [dmInsert_lookup_self]
          exact Or.inr rfl
      · have hphi : phiG G (dmInsert dm child (d + 1)) < phiG G dm := by
          apply phi_insert_lt G dm child (d + 1) hcN
          rw [hl]
          simp only [rnkD]
          have := min_le_right (d + 1) (G.nodeIds.length + 1)
          omega
        rw [List.length_append, List.length_singleton]
        omega
      · rw [hkeys, List.length_append, List.length_singleton]
        omega
  | some dc =>
      simp only
      by_cases hgt : dc > d + 1
      · rw [if_pos hgt]
        have hkeys := dmInsert_keys dm child (d + 1)
        rw [hl] at hkeys
        simp only [Option.isSome_some, if_true] at hkeys
        have hvb := hinv.vB child dc hl
        refine ⟨⟨?_, ?_, ?_, ?_⟩, ?_, ?_, ?_, ?_, ?_, ?_, ?_⟩
        · intro k hk
          rw [hkeys] at hk
          exact hinv.keysN k hk
        · rw [hkeys]
          exact hinv.keysND
        · intro k v hk
          rw [hkeys]
          by_cases hkc : k = child
          · subst hkc
            rw [dmInsert_lookup_self] at hk
            injection hk with hk
            omega
          · rw [dmInsert_lookup_ne dm child k (d + 1) hkc] at hk
            exact hinv.vB k v hk
        · intro k v hk
          by_cases hkc : k = child
          · subst hkc
            rw [dmInsert_lookup_self] at hk
            injection hk with hk
            rw [← hk]
            exact hcR
          · rw [dmInsert_lookup_ne dm child k (d + 1) hkc] at hk
            exact hinv.real k v hk
        · intro k v hk
          by_cases hkc : k = child
          · subst hkc
            rw [hl] at hk
            injection hk with hk
            subst hk
            exact ⟨d + 1, by omega, dmInsert_lookup_self _ _ _⟩
          · refine ⟨v, le_refl v, ?_⟩
            rw [dmInsert_lookup_ne dm child k (d + 1) hkc]
            exact hk
        · intro x hx
          exact List.mem_append_left _ hx
        · intro k hk
          by_cases hkc : k = child
          · subst hkc
            simp
          · rw [dmInsert_lookup_ne dm child k (d + 1) hkc] at hk
            exact absurd rfl hk
        · exact ⟨d + 1, dmInsert_lookup_self dm child (d + 1), le_refl _⟩
        · intro x hx
          rcases List.mem_append.mp hx with hx' | hx'
          · exact Or.inl hx'
          · simp only [List.mem_singleton] at hx'
            subst hx'
            rw [dmInsert_lookup_self]
            exact Or.inr rfl
        · have hphi : phiG G (dmInsert dm child (d + 1)) < phiG G dm := by
            apply phi_insert_lt G dm child (d + 1) hcN
            rw [hl]
            simp only [rnkD]
            omega
          show phiG G (dmInsert dm child (d + 1)) + (q ++ [child]).length ≤
            phiG G dm + q.length
          rw [List.length_append, List.length_singleton]
          omega
        · rw [hkeys]
      · rw [if_neg hgt]
        refine ⟨hinv, ?_, ?_, ?_, ?_, ?_, ?_, ?_⟩
        · intro k v hk
          exact ⟨v, le_refl v, hk⟩
        · intro x hx
          exact hx
        · intro k hk
          exact absurd rfl hk
        · exact ⟨dc, hl, by omega⟩
        · intro x hx
          exact Or.inl hx
        · exact le_refl _
        · exact le_refl _

lemma relaxChildren_spec (G : OGraph) (roots : List String) (d : ℕ) :
    ∀ (children : List String) (dm : List (String × ℕ)) (q : List String),
      DInv G roots dm →
      (∀ c ∈ children, c ∈ G.nodeIds) →
      (∀ c ∈ children, ReachN G roots (d + 1) c) →
      d + 1 ≤ (dm.map Prod.fst).length →
      DInv G roots (relaxChildren children d (dm, q)).1 ∧
      (∀ k v, dm.lookup k = some v →
        ∃ v' ≤ v, (relaxChildren children d (dm, q)).1.lookup k = some v') ∧
      (∀ x ∈ q, x ∈ (relaxChildren children d (dm, q)).2) ∧
      (∀ k, (relaxChildren children d (dm, q)).1.lookup k ≠ dm.lookup k →
        k ∈ (relaxChildren children d (dm, q)).2) ∧
      (∀ c ∈ children, ∃ dc, (relaxChildren children d (dm, q)).1.lookup c = some dc ∧
        dc ≤ d + 1) ∧
      (∀ x ∈ (relaxChildren children d (dm, q)).2,
        x ∈ q ∨ ((relaxChildren children d (dm, q)).1.lookup x).isSome) ∧
      phiG G (relaxChildren children d (dm, q)).1 +
        (relaxChildren children d (dm, q)).2.length ≤ phiG G dm + q.length ∧
      (dm.map Prod.fst).length ≤
        ((relaxChildren children d (dm, q)).1.map Prod.fst).length := by
  intro children
  induction children with
  | nil =>
      intro dm q hinv _ _ _
      refine ⟨hinv, ?_, ?_, ?_, ?_, ?_, le_refl _, le_refl _⟩
      · intro k v hk; exact ⟨v, le_refl v, hk⟩
      · intro x hx; exact hx
      · intro k hk; exact absurd rfl hk
      · intro c hc; cases hc
      · intro x hx; exact Or.inl hx
  | cons c cs ih =>
      intro dm q hinv hN hR hd
      obtain ⟨i1, m1, s1, c1, r1, t1, e1, l1⟩ :=
        relaxOne_spec G roots d dm q c hinv (hN c (List.mem_cons_self c cs))
          (hR c (List.mem_cons_self c cs)) hd
      have hstep : relaxChildren (c :: cs) d (dm, q) =
          relaxChildren cs d ((relaxOne d (dm, q) c).1, (relaxOne d (dm, q) c).2) := by
        simp [relaxChildren]
      obtain ⟨i2, m2, s2, c2, r2, t2, e2, l2⟩ :=
        ih (relaxOne d (dm, q) c).1 (relaxOne d (dm, q) c).2 i1
          (fun x hx => hN x (List.mem_cons_of_mem c hx))
          (fun x hx => hR x (List.mem_cons_of_mem c hx))
          (le_trans hd l1)
      rw [hstep]
      refine ⟨i2, ?_, ?_, ?_, ?_, ?_, ?_, ?_⟩
      · intro k v hk
        obtain ⟨v1, hv1, hk1⟩ := m1 k v hk
        obtain ⟨v2, hv2, hk2⟩ := m2 k v1 hk1
        exact ⟨v2, le_trans hv2 hv1, hk2⟩
      · intro x hx
        exact s2 x (s1 x hx)
      · intro k hk
        by_cases h1 : (relaxOne d (dm, q) c).1.lookup k = dm.lookup k
        · rw [← h1] at hk
          exact c2 k hk
        · exact s2 k (c1 k h1)
      · intro x hx
        rcases List.mem_cons.mp hx with rfl | hx'
        · obtain ⟨dc, hdc, hle⟩ := r1
          obtain ⟨dc', hdc', hlk'⟩ := m2 x dc hdc
          exact ⟨dc', hlk', le_trans hdc' hle⟩
        · exact r2 x hx'
      · intro x hx
        rcases t2 x hx with hx1 | hs
        · rcases t1 x hx1 with hq | hs1
          · exact Or.inl hq
          · right
            rw [Option.isSome_iff_exists] at hs1
            obtain ⟨v, hv⟩ := hs1
            obtain ⟨v', _, hv'⟩ := m2 x v hv
            rw [hv']
            rfl
        · exact Or.inr hs
      · exact le_trans e2 e1
      · exact le_trans l1 l2

lemma bfsLoop_spec (G : OGraph) (roots : List String)
    (hwf : ∀ x ∈ G.nodeIds, ∀ c ∈ (G.attr x).children, c ∈ G.nodeIds) :
    ∀ (fuel : ℕ) (dm : List (String × ℕ)) (q : List String),
      QInv G roots dm q → phiG G dm + q.length < fuel →
      ∃ dm', bfsLoop G fuel dm q = some dm' ∧ QInv G roots dm' [] ∧
        (∀ k v, dm.lookup k = some v → ∃ v' ≤ v, dm'.lookup k = some v') := by
  intro fuel
  induction fuel with
  | zero =>
      intro dm q _ hm
      exact absurd hm (Nat.not_lt_zero _)
  | succ fuel ih =>
      intro dm q hq hm
      cases q with
      | nil =>
          exact ⟨dm, rfl, hq, fun k v h => ⟨v, le_refl v, h⟩⟩
      | cons cur rest =>
          have hcur := hq.qRec cur (List.mem_cons_self _ _)
          cases hl : dm.lookup cur with
          | none => rw [hl] at hcur; simp at hcur
          | some d =>
              have hcurK : cur ∈ dm.map Prod.fst :=
                lookup_isSome_mem_keys dm cur (by rw [hl]; rfl)
              have hcurN : cur ∈ G.nodeIds := hq.dinv.keysN cur hcurK
              have hchN : ∀ c ∈ (G.attr cur).children, c ∈ G.nodeIds := hwf cur hcurN
              have hreal : ReachN G roots d cur := hq.dinv.real cur d hl
              have hchR : ∀ c ∈ (G.attr cur).children, ReachN G roots (d + 1) c :=
                fun c hc => ReachN.child d cur c hreal hc
              have hd : d + 1 ≤ (dm.map Prod.fst).length := hq.dinv.vB cur d hl
              obtain ⟨i1, m1, s1, c1, r1, t1, e1, _⟩ :=
                relaxChildren_spec G roots d (G.attr cur).children dm rest
                  hq.dinv hchN hchR hd
              have hq1 : QInv G roots (relaxChildren (G.attr cur).children d (dm, rest)).1
                  (relaxChildren (G.attr cur).children d (dm, rest)).2 := by
                refine ⟨i1, ?_, ?_⟩
                · intro x hx
                  rcases t1 x hx with hx1 | hs
                  · have hsome := hq.qRec x (List.mem_cons_of_mem cur hx1)
                    rw [Option.isSome_iff_exists] at hsome
                    obtain ⟨v, hv⟩ := hsome
                    obtain ⟨v', _, hv'⟩ := m1 x v hv
                    rw [hv']
                    rfl
                  · exact hs
                · intro u du hdu c hc
                  by_cases hchg :
                      (relaxChildren (G.attr cur).children d (dm, rest)).1.lookup u =
                        dm.lookup u
                  · have hdm_u : dm.lookup u = some du := by rw [← hchg]; exact hdu
                    rcases hq.fix u du hdm_u c hc with hmem | ⟨dc, hdc, hle⟩
                    · rcases List.mem_cons.mp hmem with rfl | hmem'
                      · have hdud : du = d := by
                          rw [hl] at hdm_u
                          injection hdm_u with h'
                          exact h'.symm
                        subst hdud
                        obtain ⟨dc, hdc, hle⟩ := r1 c hc
                        exact Or.inr ⟨dc, hdc, by omega⟩
                      · exact Or.inl (s1 u hmem')
                    · obtain ⟨dc', hle', hdc'⟩ := m1 c dc hdc
                      exact Or.inr ⟨dc', hdc', by omega⟩
                  · exact Or.inl (c1 u hchg)
              have hmeas :
                  phiG G (relaxChildren (G.attr cur).children d (dm, rest)).1 +
                    (relaxChildren (G.attr cur).children d (dm, rest)).2.length < fuel := by
                have hm' : phiG G dm + rest.length < fuel := by
                  simp only [List.length_cons] at hm
                  omega
                omega
              obtain ⟨dm', hrun, hq2, m2⟩ :=
                ih (relaxChildren (G.attr cur).children d (dm, rest)).1
                  (relaxChildren (G.attr cur).children d (dm, rest)).2 hq1 hmeas
              refine ⟨dm', ?_, hq2, ?_⟩
              · show bfsLoop G (fuel + 1) dm (cur :: rest) = some dm'
                rw [bfsLoop, hl]
                exact hrun
              · intro k v hk
                obtain ⟨v1, hv1, hk1⟩ := m1 k v hk
                obtain ⟨v2, hv2, hk2⟩ := m2 k v1 hk1
                exact ⟨v2, le_trans hv2 hv1, hk2⟩

lemma depthRootsLoop_spec (G : OGraph) (roots : List String)
    (hwf : ∀ x ∈ G.nodeIds, ∀ c ∈ (G.attr x).children, c ∈ G.nodeIds)
    (hrootsN : ∀ r ∈ roots, r ∈ G.nodeIds) :
    ∀ (rs : List String) (dm : List (String × ℕ)),
      (∀ r ∈ rs, r ∈ roots) → QInv G roots dm [] →
      ∃ dm', depthRootsLoop G rs dm = some dm' ∧ QInv G roots dm' [] ∧
        (∀ k v, dm.lookup k = some v → ∃ v' ≤ v, dm'.lookup k = some v') ∧
        (∀ r ∈ rs, dm'.lookup r = some 0) := by
  intro rs
  induction rs with
  | nil =>
      intro dm _ hq
      exact ⟨dm, rfl, hq, fun k v h => ⟨v, le_refl v, h⟩,
        fun r hr => absurd hr (by simp)⟩
  | cons r rs' ih =>
      intro dm hrs hq
      have hrroot : r ∈ roots := hrs r (List.mem_cons_self r rs')
      have hrN : r ∈ G.nodeIds := hrootsN r hrroot
      have hq1 : QInv G roots (dmInsert dm r 0) [r] := by
        have hkeys := dmInsert_keys dm r 0
        refine ⟨⟨?_, ?_, ?_, ?_⟩, ?_, ?_⟩
        · intro k hk
          rw [hkeys] at hk
          split at hk
          · exact hq.dinv.keysN k hk
          · rcases List.mem_append.mp hk with hk' | hk'
            · exact hq.dinv.keysN k hk'
            · simp only [List.mem_singleton] at hk'
              exact hk' ▸ hrN
        · rw [hkeys]
          split
          · exact hq.dinv.keysND
          · rename_i hns
            have hnotk : r ∉ dm.map Prod.fst := by
              rw [← lookup_none_iff_keys]
              rw [Option.not_isSome_iff_eq_none] at hns
              exact hns
            simp only [List.nodup_append, List.nodup_cons, List.nodup_nil]
            exact ⟨hq.dinv.keysND, by simp, by simpa using fun hc => hnotk hc⟩
        · intro k v hk
          rw [hkeys]
          by_cases hkr : k = r
          · subst hkr
            rw [dmInsert_lookup_self] at hk
            injection hk with hk
            split
            · rename_i hs
              have := lookup_isSome_mem_keys dm k hs
              have hpos : 0 < (dm.map Prod.fst).length := List.length_pos_of_mem this
              omega
            · rw [List.length_append, List.length_singleton]
              omega
          · rw [dmInsert_lookup_ne dm r k 0 hkr] at hk
            have := hq.dinv.vB k v hk
            split
            · exact this
            · rw [List.length_append, List.length_singleton]
              omega
        · intro k v hk
          by_cases hkr : k = r
          · subst hkr
            rw [dmInsert_lookup_self] at hk
            injection hk with hk
            rw [← hk]
            exact ReachN.root k hrroot
          · rw [dmInsert_lookup_ne dm r k 0 hkr] at hk
            exact hq.dinv.real k v hk
        · intro x hx
          simp only [List.mem_singleton] at hx
          subst hx
          rw [dmInsert_lookup_self]
          rfl
        · intro u du hdu c hc
          by_cases hur : u = r
          · exact Or.inl (by simp [hur])
          · rw [dmInsert_lookup_ne dm r u 0 hur] at hdu
            rcases hq.fix u du hdu c hc with hmem | ⟨dc, hdc, hle⟩
            · cases hmem
            · right
              by_cases hcr : c = r
              · subst hcr
                exact ⟨0, dmInsert_lookup_self dm c 0, by omega⟩
              · exact ⟨dc, by rw [dmInsert_lookup_ne dm r c 0 hcr]; exact hdc, hle⟩
      have hmeas : phiG G (dmInsert dm r 0) + ([r] : List String).length < depthFuel G := by
        have := phiG_le G (dmInsert dm r 0)
        simp only [List.length_singleton, depthFuel]
        omega
      obtain ⟨dm₂, hrun, hq2, m12⟩ := bfsLoop_spec G roots hwf (depthFuel G)
        (dmInsert dm r 0) [r] hq1 hmeas
      have hr0 : dm₂.lookup r = some 0 := by
        obtain ⟨v, hv, hlk⟩ := m12 r 0 (dmInsert_lookup_self dm r 0)
        have : v = 0 := Nat.le_zero.mp hv
        rw [← this]
        exact hlk
      obtain ⟨dm', hrun', hq', m2', hroots'⟩ := ih dm₂
        (fun x hx => hrs x (List.mem_cons_of_mem r hx)) hq2
      refine ⟨dm', ?_, hq', ?_, ?_⟩
      · show depthRootsLoop G (r :: rs') dm = some dm'
        rw [depthRootsLoop, hrun]
        exact hrun'
      · intro k v hk
        have hk1 : ∃ v₁ ≤ v, (dmInsert dm r 0).lookup k = some v₁ := by
          by_cases hkr : k = r
          · subst hkr
            exact ⟨0, Nat.zero_le v, dmInsert_lookup_self dm k 0⟩
          · exact ⟨v, le_refl v, by rw [dmInsert_lookup_ne dm r k 0 hkr]; exact hk⟩
        obtain ⟨v₁, hv₁, hk1⟩ := hk1
        obtain ⟨v₂, hv₂, hk2⟩ := m12 k v₁ hk1
        obtain ⟨v₃, hv₃, hk3⟩ := m2' k v₂ hk2
        exact ⟨v₃, by omega, hk3⟩
      · intro x hx
        rcases List.mem_cons.mp hx with rfl | hx'
        · obtain ⟨v, hv, hlk⟩ := m2' x 0 hr0
          have : v = 0 := Nat.le_zero.mp hv
          rw [← this]
          exact hlk
        · exact hroots' x hx'

lemma reach_bound (G : OGraph) (roots : List String) (dm : List (String × ℕ))
    (hfix : ∀ u du, dm.lookup u = some du → ∀ c ∈ (G.attr u).children,
      ∃ dc, dm.lookup c = some dc ∧ dc ≤ du + 1)
    (hroots : ∀ r ∈ roots, dm.lookup r = some 0) :
    ∀ (n : ℕ) (c : String), ReachN G roots n c → ∃ dc ≤ n, dm.lookup c = some dc := by
  intro n c h
  induction h with
  | root r hr => exact ⟨0, Nat.le_refl 0, hroots r hr⟩
  | child n u c hu hc ih =>
      obtain ⟨du, hdun, hlk⟩ := ih
      obtain ⟨dc, hlc, hle⟩ := hfix u du hlk c hc
      exact ⟨dc, by omega, hlc⟩

/-- C5: for every well-formed ontology graph (label-map keys and
children lists refer to existing nodes), `calculate_ontology_depth`
returns: every root (parentless Class among the label-map keys) has
depth 0, every recorded depth (a natural number, hence non-negative) is
BOTH realised by a hierarchy path from some root of that exact length
AND minimal over all such paths — across different roots — and a class
is in the map exactly when it is reachable from some root. -/
theorem calculate_ontology_depth_correct (G : OGraph) (label_map_keys : List String)
    (hkeys : ∀ k ∈ label_map_keys, k ∈ G.nodeIds)
    (hch : ∀ x ∈ G.nodeIds, ∀ c ∈ (G.attr x).children, c ∈ G.nodeIds) :
    ∃ dm roots, calculate_ontology_depth G label_map_keys = some (dm, roots) ∧
      roots = label_map_keys.filter
        (fun cid => (G.attr cid).ntype == "Class" && (G.attr cid).parents.isEmpty) ∧
      (∀ r ∈ roots, dm.lookup r = some 0) ∧
      (∀ c d, dm.lookup c = some d →
        ReachN G roots d c ∧ ∀ d', ReachN G roots d' c → d ≤ d') ∧
      (∀ c, (∃ n, ReachN G roots n c) → (dm.lookup c).isSome) ∧
      (∀ c, (∀ n, ¬ ReachN G roots n c) → dm.lookup c = none) := by
  set roots := label_map_keys.filter
    (fun cid => (G.attr cid).ntype == "Class" && (G.attr cid).parents.isEmpty) with hroots_def
  have hrootsN : ∀ r ∈ roots, r ∈ G.nodeIds := by
    intro r hr
    exact hkeys r (List.mem_of_mem_filter hr)
  have hq0 : QInv G roots [] [] := by
    refine ⟨⟨?_, ?_, ?_, ?_⟩, ?_, ?_⟩
    · intro k hk; simp at hk
    · simp
    · intro k v hk; simp [List.lookup] at hk
    · intro k v hk; simp [List.lookup] at hk
    · intro x hx; simp at hx
    · intro u du hdu; simp [List.lookup] at hdu
  obtain ⟨dm, hrun, hq, _, hroots0⟩ :=
    depthRootsLoop_spec G roots hch hrootsN roots [] (fun r hr => hr) hq0
  have hfix : ∀ u du, dm.lookup u = some du → ∀ c ∈ (G.attr u).children,
      ∃ dc, dm.lookup c = some dc ∧ dc ≤ du + 1 := by
    intro u du hdu c hc
    rcases hq.fix u du hdu c hc with hmem | h
    · simp at hmem
    · exact h
  refine ⟨dm, roots, ?_, rfl, hroots0, ?_, ?_, ?_⟩
  · show calculate_ontology_depth G label_map_keys = some (dm, roots)
    simp only [calculate_ontology_depth]
    rw [← hroots_def, hrun]
  · intro c d hd
    refine ⟨hq.dinv.real c d hd, ?_⟩
    intro d' hd'
    obtain ⟨dc, hdc, hlk⟩ := reach_bound G roots dm hfix hroots0 d' c hd'
    rw [hd] at hlk
    injection hlk with h'
    omega
  · intro c hc
    obtain ⟨n, hn⟩ := hc
    obtain ⟨dc, _, hlk⟩ := reach_bound G roots dm hfix hroots0 n c hn
    rw [hlk]
    rfl
  · intro c hc
    cases hl : dm.lookup c with
    | none => rfl
    | some d => exact absurd (hq.dinv.real c d hl) (hc d)

/-- Two-root diamond: `r1 → a → b → c` and `r2 → c`, so `c` is reachable
by paths of lengths 3 and 1. -/
def G_depth : OGraph :=
  { nodeIds := ["r1", "r2", "a", "b", "c"],
    attr := fun id =>
      if id = "r1" then { ntype := "Class", children := ["a"] }
      else if id = "r2" then { ntype := "Class", children := ["c"] }
      else if id = "a" then { ntype := "Class", parents := ["r1"], children := ["b"] }
      else if id = "b" then { ntype := "Class", parents := ["a"], children := ["c"] }
      else if id = "c" then { ntype := "Class", parents := ["b", "r2"] }
      else {} }

/-- Witness for C5 on the two-root diamond graph. -/
theorem calculate_ontology_depth_correct_witness :
    ∃ dm roots,
      calculate_ontology_depth G_depth ["r1", "r2", "a", "b", "c"] = some (dm, roots) ∧
      roots = (["r1", "r2", "a", "b", "c"] : List String).filter
        (fun cid => (G_depth.attr cid).ntype == "Class" &&
          (G_depth.attr cid).parents.isEmpty) ∧
      (∀ r ∈ roots, dm.lookup r = some 0) ∧
      (∀ c d, dm.lookup c = some d →
        ReachN G_depth roots d c ∧ ∀ d', ReachN G_depth roots d' c → d ≤ d') ∧
      (∀ c, (∃ n, ReachN G_depth roots n c) → (dm.lookup c).isSome) ∧
      (∀ c, (∀ n, ¬ ReachN G_depth roots n c) → dm.lookup c = none) :=
  calculate_ontology_depth_correct G_depth ["r1", "r2", "a", "b", "c"]
    (by decide) (by decide)

end MidasRag
